import Mathlib

/-!
# Verification of the de Bruijn assembler (`debruijn/debruijn.py`)

A shallow embedding of the graph-construction and simplification engine of
the assembler, together with proofs and refutations of its specification
claims.

Conventions of the embedding:

* Python strings (reads, k-mers, graph node labels) are `List Char`
  (abbreviated `Str`); `s[:-1]` is `s.dropLast`, `s[1:]` is `s.drop 1`,
  `s[-1]` is the last character.
* An `nx.DiGraph` is a pair of lists: the node list in insertion order and
  the weighted edge list in insertion order, with at most one edge per
  ordered node pair (maintained by `add_edge`, which overwrites).
* `float` averages of integer edge weights are modelled exactly as
  unnormalized fractions `Frac` (numerator = weight sum, denominator =
  edge count), compared by value through cross-multiplication — at every
  call site the denominator is positive, where cross-multiplication
  agrees with the rational value order.  `statistics.stdev xs > 0` holds
  exactly when the data points are not all equal (by value), and
  `statistics.stdev`/`statistics.mean` raise `StatisticsError` on fewer
  than two / zero data points.
* Fallible Python code returns `Except PyError`; `PyError.fuelOut` marks a
  computation whose recursion exhausted every finite bound (the embedding
  of Python's unbounded recursion in `simplify_bubbles`).
* The global seeded `random.randint(0, n)` draw is passed in explicitly as
  a `Nat` argument (the drawn value), as the spec's §5 requires of a
  faithful reimplementation.
-/

/-- Python strings are finite character sequences. -/
abbrev Str := List Char

/-- The exceptions the embedded code can raise. `statisticsError` models
`statistics.StatisticsError` (from `mean` on an empty list or `stdev` on
fewer than two points), `typeError` the list-as-slice-index failure,
`indexError` an out-of-range list index, `networkXError` the
"LCA only defined on directed acyclic graphs" failure, and `fuelOut` the
exhaustion of an arbitrary finite recursion bound (non-termination). -/
inductive PyError where
  | statisticsError
  | typeError
  | indexError
  | networkXError
  | nodeNotFound
  | fuelOut
  | invalidPath
deriving DecidableEq, Repr

/-- Equality of embedded fallible results is decidable, so that concrete
runs can be checked by `decide`. -/
instance {ε α : Type} [DecidableEq ε] [DecidableEq α] :
    DecidableEq (Except ε α) := fun a b =>
  match a, b with
  | .error e, .error f =>
    if h : e = f then isTrue (by rw [h]) else
      isFalse (fun hc => h (by cases hc; rfl))
  | .ok x, .ok y =>
    if h : x = y then isTrue (by rw [h]) else
      isFalse (fun hc => h (by cases hc; rfl))
  | .error _, .ok _ => isFalse (fun hc => by cases hc)
  | .ok _, .error _ => isFalse (fun hc => by cases hc)

/-- An exact nonnegative fraction, kept unnormalized: the value of the
`float` average of a list of integer edge weights (weight sum over edge
count).  Comparisons go through cross-multiplication, which agrees with
the value order whenever the denominators are positive — and they are at
every call site, where a fraction is only formed over a nonempty edge
list. -/
structure Frac where
  num : Nat
  den : Nat
deriving DecidableEq, Repr

namespace Frac

/-- The rational value of the fraction. -/
def val (x : Frac) : ℚ := (x.num : ℚ) / (x.den : ℚ)

/-- Value equality (float `==`). -/
def beqV (x y : Frac) : Bool := x.num * y.den = y.num * x.den

/-- Strict value order (float `<`). -/
def bltV (x y : Frac) : Bool := x.num * y.den < y.num * x.den

end Frac

/-- An `nx.DiGraph` with integer edge weights: node list and weighted edge
list, both in insertion order.  `edges` entries are `(u, v, weight)`. -/
structure DiGraph where
  nodes : List Str
  edges : List (Str × Str × Nat)
deriving DecidableEq, Repr

namespace DiGraph

/-- The empty graph `nx.DiGraph()`. -/
def empty : DiGraph := ⟨[], []⟩

/-- `list(graph.predecessors n)`: sources of the edges into `n`, in edge
insertion order. -/
def predecessors (g : DiGraph) (n : Str) : List Str :=
  (g.edges.filter (fun e => e.2.1 = n)).map (fun e => e.1)

/-- `list(graph.successors n)`: targets of the edges out of `n`, in edge
insertion order. -/
def successors (g : DiGraph) (n : Str) : List Str :=
  (g.edges.filter (fun e => e.1 = n)).map (fun e => e.2.1)

/-- Whether the graph has an edge from `u` to `v` (ignoring the weight). -/
def hasEdge (g : DiGraph) (u v : Str) : Bool :=
  g.edges.any (fun e => e.1 = u ∧ e.2.1 = v)

/-- Add a node if absent (`nx` adds new nodes at the end of the node
view). -/
def addNode (g : DiGraph) (n : Str) : DiGraph :=
  if n ∈ g.nodes then g else { g with nodes := g.nodes ++ [n] }

/-- `graph.add_edge u v weight=w`: ensures both endpoints are nodes and
sets the edge weight, overwriting an existing `u→v` edge. -/
def add_edge (g : DiGraph) (u v : Str) (w : Nat) : DiGraph :=
  if ((g.addNode u).addNode v).hasEdge u v then
    { nodes := ((g.addNode u).addNode v).nodes,
      edges := ((g.addNode u).addNode v).edges.map (fun e =>
        if e.1 = u ∧ e.2.1 = v then (u, v, w) else e) }
  else
    { nodes := ((g.addNode u).addNode v).nodes,
      edges := ((g.addNode u).addNode v).edges ++ [(u, v, w)] }

/-- `graph.remove_node n` (also silently ignores an absent node, which is
all `remove_nodes_from` needs): drops the node and every incident edge. -/
def removeNode (g : DiGraph) (n : Str) : DiGraph :=
  { nodes := g.nodes.filter (fun m => m ≠ n),
    edges := g.edges.filter (fun e => e.1 ≠ n ∧ e.2.1 ≠ n) }

/-- `graph.remove_nodes_from l`. -/
def removeNodesFrom (g : DiGraph) (l : List Str) : DiGraph :=
  l.foldl removeNode g

/-- The edges of `graph.subgraph path`: all graph edges with both
endpoints among the listed nodes (not only consecutive pairs). -/
def subgraphEdges (g : DiGraph) (path : List Str) : List (Str × Str × Nat) :=
  g.edges.filter (fun e => e.1 ∈ path ∧ e.2.1 ∈ path)

/-- Bounded reachability: `reachbAux g f u v` holds when a directed walk
of at most `f` edges leads from `u` to `v`. -/
def reachbAux (g : DiGraph) : Nat → Str → Str → Bool
  | 0, u, v => u = v
  | f + 1, u, v => u = v || (g.successors u).any (fun s => reachbAux g f s v)

/-- Reachability (`networkx` has a path from `u` to `v`, reflexively):
since a walk can always be shortened to one visiting each node at most
once, `g.nodes.length` edges of fuel are enough. -/
def reaches (g : DiGraph) (u v : Str) : Bool :=
  reachbAux g g.nodes.length u v

/-- `nx.is_directed_acyclic_graph`: no edge closes a directed cycle. -/
def isDag (g : DiGraph) : Bool :=
  !(g.edges.any (fun e => reaches g e.2.1 e.1))

/-- The common ancestors of `x` and `y` used by `nx.lowest_common_ancestor`
(`nx.ancestors` of each node, plus the node itself), in node order. -/
def commonAncestors (g : DiGraph) (x y : Str) : List Str :=
  g.nodes.filter (fun a => g.reaches a x && g.reaches a y)

/-- The descent loop of `nx.lowest_common_ancestor`: repeatedly move to
the first successor that is still a common ancestor, until none is.  On a
DAG the descent visits pairwise distinct nodes, so `g.nodes.length` steps
of fuel never run out. -/
def walkDownAux (g : DiGraph) (s : List Str) : Nat → Str → Str
  | 0, cur => cur
  | f + 1, cur =>
    match (g.successors cur).find? (fun n => n ∈ s) with
    | none => cur
    | some nxt => walkDownAux g s f nxt

/-- `nx.lowest_common_ancestor g x y` (default `None`): raises
`NetworkXError` unless the graph is a DAG; otherwise returns `None` when
`x` and `y` have no common ancestor, and otherwise descends from a common
ancestor to a lowest one. -/
def lowest_common_ancestor (g : DiGraph) (x y : Str) :
    Except PyError (Option Str) :=
  if g.isDag then
    match g.commonAncestors x y with
    | [] => .ok none
    | a :: _ =>
      .ok (some (walkDownAux g (g.commonAncestors x y) g.nodes.length a))
  else .error .networkXError

/-- The DFS of `nx.all_simple_paths` (single target): from `cur`, with the
nodes of `visited` excluded, all simple paths to `t` in successor order.
Each recursion step adds one node to the path, and a simple path visits at
most `g.nodes.length` nodes, so that much fuel is never exhausted on a
well-formed graph. -/
def allSimplePathsAux (g : DiGraph) (t : Str) :
    Nat → Str → List Str → List (List Str)
  | 0, _, _ => []
  | f + 1, cur, visited =>
    if cur = t then [[t]]
    else
      ((g.successors cur).filter (fun s => s ∉ cur :: visited)).flatMap
        (fun s => (allSimplePathsAux g t f s (cur :: visited)).map
          (fun p => cur :: p))

/-- `list(nx.all_simple_paths g s t)`: empty when `s = t` (as in
`networkx`), otherwise the DFS enumeration. -/
def all_simple_paths (g : DiGraph) (s t : Str) : List (List Str) :=
  if s = t then [] else allSimplePathsAux g t g.nodes.length s []

/-- `nx.has_path g s t` (both endpoints assumed present in the graph, as
at every call site of `get_contigs`). -/
def has_path (g : DiGraph) (s t : Str) : Bool := g.reaches s t

end DiGraph

/-! ## The embedded program functions -/

open DiGraph

/-- `cut_kmer` (`debruijn.py:92`): the overlapping length-`kmer_size`
substrings of `read`, left to right (Python's `range(len(read)-kmer_size+1)`
is empty when the read is shorter than the k-mer size). -/
def cut_kmer (read : Str) (kmer_size : Nat) : List Str :=
  (List.range (read.length + 1 - kmer_size)).map
    (fun i => (read.drop i).take kmer_size)

/-- A Python `dict` with `Str` keys as an insertion-ordered association
list: `d[k] = v` (overwrite, or append when the key is new). -/
def dictSet (d : List (Str × Nat)) (k : Str) (v : Nat) : List (Str × Nat) :=
  if d.any (fun kv => kv.1 = k) then
    d.map (fun kv => if kv.1 = k then (k, v) else kv)
  else d ++ [(k, v)]

/-- `d[k] += 1` (the key is guaranteed present at every call site, since
`build_kmer_dict` first sets every k-mer of the read to `0`). -/
def dictIncr (d : List (Str × Nat)) (k : Str) : List (Str × Nat) :=
  d.map (fun kv => if kv.1 = k then (kv.1, kv.2 + 1) else kv)

/-- `d.get k` / `d[k]` as a lookup. -/
def dictLookup (d : List (Str × Nat)) (k : Str) : Option Nat :=
  (d.find? (fun kv => kv.1 = k)).map (fun kv => kv.2)

/-- `build_kmer_dict` (`debruijn.py:102`), over the read sequences that
`read_fastq` extracts: per read, first set every one of its k-mers to `0`,
then increment every one of its k-mer occurrences. -/
def build_kmer_dict (reads : List Str) (kmer_size : Nat) : List (Str × Nat) :=
  reads.foldl
    (fun d seq =>
      (cut_kmer seq kmer_size).foldl dictIncr
        ((cut_kmer seq kmer_size).foldl (fun d' km => dictSet d' km 0) d))
    []

/-- `build_graph` (`debruijn.py:118`): one `add_edge k[:-1] → k[1:]` with
weight `v` per dictionary entry, in insertion order. -/
def build_graph (kmer_dict : List (Str × Nat)) : DiGraph :=
  kmer_dict.foldl
    (fun g kv => g.add_edge kv.1.dropLast (kv.1.drop 1) kv.2) DiGraph.empty

/-- The nodes `remove_paths` deletes on account of one path, per the two
flags (`debruijn.py:140-148`): the whole path, `path[1:-1]`, `path[1:]` or
`path[:-1]`. -/
def nodesToDelete (path : List Str) (delete_entry_node delete_sink_node : Bool) :
    List Str :=
  if delete_entry_node && delete_sink_node then path
  else if !delete_entry_node && !delete_sink_node then (path.drop 1).dropLast
  else if !delete_entry_node && delete_sink_node then path.drop 1
  else path.dropLast

/-- `remove_paths` (`debruijn.py:130`): remove each listed path's eligible
nodes (and with them their incident edges) from the graph, in order. -/
def remove_paths (graph : DiGraph) (path_list : List (List Str))
    (delete_entry_node delete_sink_node : Bool) : DiGraph :=
  path_list.foldl
    (fun g path =>
      g.removeNodesFrom (nodesToDelete path delete_entry_node delete_sink_node))
    graph

/-- `statistics.stdev xs > 0`, with exact arithmetic: raises
`StatisticsError` on fewer than two data points, and is positive exactly
when the points are not all equal by value (the weight-average list). -/
def stdevPosF (xs : List Frac) : Except PyError Bool :=
  match xs with
  | [] => .error .statisticsError
  | [_] => .error .statisticsError
  | x :: y :: rest => .ok (!((y :: rest).all (fun z => z.beqV x)))

/-- `statistics.stdev xs > 0` for the integer length list. -/
def stdevPosN (xs : List Nat) : Except PyError Bool :=
  match xs with
  | [] => .error .statisticsError
  | [_] => .error .statisticsError
  | x :: y :: rest => .ok (!((y :: rest).all (fun z => z = x)))

/-- Python's `max` on a nonempty list of float values: keep the current
maximum unless the next item is strictly greater (so ties keep the
earliest). -/
def maxF (xs : List Frac) : Frac :=
  xs.foldl (fun acc z => if acc.bltV z then z else acc) (xs.headD ⟨0, 1⟩)

/-- Python's `max` on a nonempty natural list. -/
def maxN (xs : List Nat) : Nat := xs.foldl max (xs.headD 0)

/-- `xs.index (max xs)`: the first index whose value equals the
maximum. -/
def idxMaxF (xs : List Frac) : Nat := xs.findIdx (fun z => z.beqV (maxF xs))

/-- `xs.index (max xs)` for the length list. -/
def idxMaxN (xs : List Nat) : Nat := xs.findIdx (fun z => z = maxN xs)

/-- `l[:i] + l[i+1:]`: the list with the entry at index `i` dropped. -/
def dropAt (l : List (List Str)) (i : Nat) : List (List Str) :=
  l.take i ++ l.drop (i + 1)

/-- `select_best_path` (`debruijn.py:153`): when the mean weights are not
all equal, discard every path but the first of greatest mean weight; else
when the lengths are not all equal, discard every path but the first of
greatest length; else draw `number_path = random.randint(0, len(path_list))`
(the drawn value is the `rand` argument) and crash — `path_list[number_path]`
raises `IndexError` when the draw equals (here: or exceeds) the list
length, and otherwise the drawn element, a path, is used as a slice index,
raising `TypeError`. -/
def select_best_path (graph : DiGraph) (path_list : List (List Str))
    (path_length : List Nat) (weight_avg_list : List Frac)
    (delete_entry_node delete_sink_node : Bool) (rand : Nat) :
    Except PyError DiGraph :=
  match stdevPosF weight_avg_list with
  | .error e => .error e
  | .ok true =>
    .ok (remove_paths graph (dropAt path_list (idxMaxF weight_avg_list))
      delete_entry_node delete_sink_node)
  | .ok false =>
    match stdevPosN path_length with
    | .error e => .error e
    | .ok true =>
      .ok (remove_paths graph (dropAt path_list (idxMaxN path_length))
        delete_entry_node delete_sink_node)
    | .ok false =>
      if rand < path_list.length then .error .typeError
      else .error .indexError

/-- `path_average_weight` (`debruijn.py:183`): the `statistics.mean` of
the weights of the edges of `graph.subgraph(path)` — every graph edge with
both endpoints on the path, not only the consecutive ones.  Raises
`StatisticsError` exactly when that subgraph has no edge. -/
def path_average_weight (graph : DiGraph) (path : List Str) :
    Except PyError Frac :=
  if ((graph.subgraphEdges path).map (fun e => e.2.2)).length = 0 then
    .error .statisticsError
  else
    .ok ⟨((graph.subgraphEdges path).map (fun e => e.2.2)).sum,
      ((graph.subgraphEdges path).map (fun e => e.2.2)).length⟩

/-- `solve_bubble` (`debruijn.py:192`): enumerate the simple paths from
the ancestor to the descendant, compute lengths and mean weights, and
hand the competition to `select_best_path` with both deletion flags
`False`. -/
def solve_bubble (graph : DiGraph) (ancestor_node descendant_node : Str)
    (rand : Nat) : Except PyError DiGraph :=
  let path_list := graph.all_simple_paths ancestor_node descendant_node
  match path_list.mapM (fun p => path_average_weight graph p) with
  | .error e => .error e
  | .ok weight_avg_list =>
    select_best_path graph path_list (path_list.map (fun p => p.length))
      weight_avg_list false false rand

/-- The inner predecessor-pair scan of `simplify_bubbles` for one fixed
predecessor `pi` (`debruijn.py:223-229`): `noeud_ancetre` is assigned the
LCA of each later pair in turn — also when it is `None` — and the `j`
loop breaks at the first non-`None` one.  The result is the value
`noeud_ancetre` holds after this row: `none` when the row made no LCA
call at all (no later predecessor), `some r` when the last call of the
row returned `r`. -/
def scanJ (g : DiGraph) (pi : Str) :
    List Str → Except PyError (Option (Option Str))
  | [] => .ok none
  | pj :: rest =>
    match lowest_common_ancestor g pi pj with
    | .error e => .error e
    | .ok (some a) => .ok (some (some a))
    | .ok none =>
      match scanJ g pi rest with
      | .error e => .error e
      | .ok none => .ok (some none)
      | .ok (some r) => .ok (some r)

/-- The full pair scan of `simplify_bubbles` for one node
(`debruijn.py:222-229`): the `i` loop runs to the end even after a bubble
is found, every LCA call overwrites `noeud_ancetre` (a later all-`None`
row can overwrite a previously found ancestor with `None`), and the
sticky `bubble` flag records whether any call returned an ancestor. -/
def scanI (g : DiGraph) :
    List Str → Bool → Option Str → Except PyError (Bool × Option Str)
  | [], bubble, anc => .ok (bubble, anc)
  | pi :: rest, bubble, anc =>
    match scanJ g pi rest with
    | .error e => .error e
    | .ok none => scanI g rest bubble anc
    | .ok (some r) => scanI g rest (bubble || r.isSome) r

/-- The node scan of `simplify_bubbles` (`debruijn.py:219-231`): the first
node (in node order) with more than one predecessor whose pair scan sets
the `bubble` flag, together with the final value of `noeud_ancetre` —
which, by the overwriting above, can be `None` even though the flag is
set. -/
def detectBubbleAux (g : DiGraph) :
    List Str → Except PyError (Option (Option Str × Str))
  | [] => .ok none
  | n :: rest =>
    if (g.predecessors n).length > 1 then
      match scanI g (g.predecessors n) false none with
      | .error e => .error e
      | .ok (true, anc) => .ok (some (anc, n))
      | .ok (false, _) => detectBubbleAux g rest
    else detectBubbleAux g rest

/-- One detection pass of `simplify_bubbles` over the whole node list. -/
def detectBubble (g : DiGraph) : Except PyError (Option (Option Str × Str)) :=
  detectBubbleAux g g.nodes

/-- `simplify_bubbles` (`debruijn.py:211`): detect a bubble, solve it, and
recurse on the result.  When the detection ends with the `bubble` flag
set but `noeud_ancetre` overwritten back to `None`, the recursive call
`solve_bubble(graph, None, node)` raises `NodeNotFound` inside
`nx.all_simple_paths`.  The Python recursion carries no progress check
and no bound; the embedding indexes it by fuel, `rands f` being the
random draw available to the `f`-th level's `solve_bubble`, and returns
`PyError.fuelOut` when a given bound is exhausted — non-termination is
the statement that this happens for every bound. -/
def simplify_bubbles (rands : Nat → Nat) : Nat → DiGraph → Except PyError DiGraph
  | 0, _ => .error .fuelOut
  | f + 1, g =>
    match detectBubble g with
    | .error e => .error e
    | .ok none => .ok g
    | .ok (some (none, _)) => .error .nodeNotFound
    | .ok (some (some a, n)) =>
      match solve_bubble g a n (rands (f + 1)) with
      | .error e => .error e
      | .ok g' => simplify_bubbles rands f g'

/-- `get_starting_nodes` (`debruijn.py:253`): the nodes without
predecessors, in node order. -/
def get_starting_nodes (graph : DiGraph) : List Str :=
  graph.nodes.filter (fun n => (graph.predecessors n).length = 0)

/-- `get_sink_nodes` (`debruijn.py:267`): the nodes without successors,
in node order. -/
def get_sink_nodes (graph : DiGraph) : List Str :=
  graph.nodes.filter (fun n => (graph.successors n).length = 0)

/-- The contig reconstructed from one path (`debruijn.py:295-297`): the
first node's full label followed by the last character of every later
node.  (Every node label produced by `build_graph` with `k ≥ 2` is
nonempty; on an empty label Python would raise, the embedding contributes
nothing.) -/
def contigOfPath : List Str → Str
  | [] => []
  | n0 :: rest => n0 ++ rest.flatMap (fun n => n.drop (n.length - 1))

/-- `get_contigs` (`debruijn.py:281`): for every (source, sink) pair in
list order with a path between them, one `(sequence, length)` pair per
simple path. -/
def get_contigs (graph : DiGraph) (starting_nodes ending_nodes : List Str) :
    List (Str × Nat) :=
  starting_nodes.flatMap (fun i =>
    ending_nodes.flatMap (fun j =>
      if graph.has_path i j then
        (graph.all_simple_paths i j).map
          (fun p => (contigOfPath p, (contigOfPath p).length))
      else []))

/-! ## Specification-side definitions

These definitions follow the wording of the spec, not the source; they
exist only to be compared with the embedded code. -/

/-- The weight of the `u→v` edge, when present. -/
def edgeWeight (g : DiGraph) (u v : Str) : Option Nat :=
  (g.edges.find? (fun e => e.1 = u ∧ e.2.1 = v)).map (fun e => e.2.2)

/-- Spec §4.2, followed word for word: the arithmetic mean of the edge
weights along the *consecutive node pairs* of the path, failing with
`InvalidPathError` when a consecutive pair is not a graph edge or the
path has fewer than two nodes. -/
def meanWeightSpec (g : DiGraph) (p : List Str) : Except PyError Frac :=
  if p.length < 2 then .error .invalidPath
  else
    match (p.zip (p.drop 1)).mapM (fun uv => edgeWeight g uv.1 uv.2) with
    | none => .error .invalidPath
    | some ws => .ok ⟨ws.sum, ws.length⟩

/-- Spec §6, followed word for word: the total number of occurrences of a
k-mer accumulated across all read records. -/
def specTotalKmerCount (reads : List Str) (kmer_size : Nat) (km : Str) : Nat :=
  (reads.map (fun r => (cut_kmer r kmer_size).count km)).sum

/-- Well-formedness of an `nx.DiGraph` (every graph the library can hold
satisfies this): distinct nodes, at most one edge per ordered pair, and
edge endpoints present among the nodes. -/
def WellFormed (g : DiGraph) : Prop :=
  g.nodes.Nodup ∧ (g.edges.map (fun e => (e.1, e.2.1))).Nodup ∧
    ∀ e ∈ g.edges, e.1 ∈ g.nodes ∧ e.2.1 ∈ g.nodes

/-- Well-formedness is decidable, so witnesses can check it on concrete
graphs. -/
instance (g : DiGraph) : Decidable (WellFormed g) := by
  unfold WellFormed
  infer_instance

/-- `u→v` is an edge of `g` (with some weight). -/
def IsEdgeOf (g : DiGraph) (u v : Str) : Prop :=
  ∃ w, (u, v, w) ∈ g.edges

/-- `l` is a directed walk from `u` to `v` in `g`. -/
def WalkFromTo (g : DiGraph) (l : List Str) (u v : Str) : Prop :=
  l.head? = some u ∧ l.getLast? = some v ∧ l.Chain' (IsEdgeOf g)

/-- `l` is a simple path from `u` to `v` in `g`. -/
def SimplePathFromTo (g : DiGraph) (l : List Str) (u v : Str) : Prop :=
  WalkFromTo g l u v ∧ l.Nodup

/-- The spec's notion of a bubble (§3): a node with two distinct
predecessors sharing a common ancestor from which at least two distinct
simple paths reach the node. -/
def HasBubble (g : DiGraph) : Prop :=
  ∃ d ∈ g.nodes, ∃ p ∈ g.predecessors d, ∃ q ∈ g.predecessors d, p ≠ q ∧
    ∃ a ∈ g.nodes, g.reaches a p = true ∧ g.reaches a q = true ∧
      ∃ l₁ l₂, l₁ ≠ l₂ ∧ SimplePathFromTo g l₁ a d ∧ SimplePathFromTo g l₂ a d

/-- The de Bruijn overlap invariant (§3's data model): every edge joins a
nonempty label to an equally long label overlapping it by all but one
character.  `build_graph` with `k ≥ 2` establishes it and node removal
preserves it, so the final graph of the pipeline satisfies it. -/
def OverlapGraph (g : DiGraph) : Prop :=
  ∀ e ∈ g.edges, e.1 ≠ [] ∧ e.2.1.length = e.1.length ∧
    e.2.1.dropLast = e.1.drop 1

/-- The overlap invariant is decidable, so witnesses can check it on
concrete graphs. -/
instance (g : DiGraph) : Decidable (OverlapGraph g) := by
  unfold OverlapGraph
  infer_instance

/-- The list of paths `select_best_path` discards, when it reaches the
removal step at all (`none` when it raises instead): every path but the
selected winner. -/
def sbpDiscarded (path_list : List (List Str)) (path_length : List Nat)
    (weight_avg_list : List Frac) : Option (List (List Str)) :=
  match stdevPosF weight_avg_list with
  | .error _ => none
  | .ok true => some (dropAt path_list (idxMaxF weight_avg_list))
  | .ok false =>
    match stdevPosN path_length with
    | .error _ => none
    | .ok true => some (dropAt path_list (idxMaxN path_length))
    | .ok false => none

/-! ## Concrete inputs used by counterexamples and witnesses -/

/-- Node label `"a"`. -/
def sA : Str := ['a']

/-- Node label `"b"`. -/
def sB : Str := ['b']

/-- Node label `"c"`. -/
def sC : Str := ['c']

/-- Node label `"d"`. -/
def sD : Str := ['d']

/-- Node label `"p"`. -/
def sP : Str := ['p']

/-- Node label `"x"`. -/
def sX : Str := ['x']

/-- Node label `"y"`. -/
def sY : Str := ['y']

/-- Node label `"z"`. -/
def sZ : Str := ['z']

/-- A graph holding two fully tied paths `a→b→d` and `a→c→d` (all weights
equal, equal lengths). -/
def G1 : DiGraph :=
  (((DiGraph.empty.add_edge sA sB 1).add_edge sB sD 1).add_edge
    sA sC 1).add_edge sC sD 1

/-- A bubble between `a` and `d` whose losing branch is the single direct
edge `a→d(1)`, the winner being `a→b→d` with weights `9`: resolving it
removes no node, so the graph never changes. -/
def G2 : DiGraph :=
  ((DiGraph.empty.add_edge sA sD 1).add_edge sA sB 9).add_edge sB sD 9

/-- A path `a→b→c` with a chord `a→c` of weight `10`. -/
def G4 : DiGraph :=
  ((DiGraph.empty.add_edge sA sB 1).add_edge sB sC 1).add_edge sA sC 10

/-- Two competing paths `a→x→y→d` (weights 10) and `a→x→z→d` sharing the
interior node `x`. -/
def G5 : DiGraph :=
  ((((DiGraph.empty.add_edge sA sX 10).add_edge sX sY 10).add_edge
    sY sD 10).add_edge sX sZ 1).add_edge sZ sD 1

/-- One edge `a→b` plus an isolated node `c` (as node removal can leave
behind): `c` has neither predecessors nor successors. -/
def G8 : DiGraph := ⟨[sA, sB, sC], [(sA, sB, 1)]⟩

/-- A cyclic graph `a→d`, `d→p`, `p→d`: the node `d` has the two distinct
predecessors `a` and `p`, but only one simple path leads from `a` to `d`,
so no bubble exists. -/
def G9 : DiGraph :=
  ((DiGraph.empty.add_edge sA sD 1).add_edge sD sP 1).add_edge sP sD 1

/-- Paths `[a,b,c]` and `[b,d]`: the interior of the first is the head of
the second. -/
def G10 : DiGraph :=
  ((DiGraph.empty.add_edge sA sB 1).add_edge sB sC 1).add_edge sB sD 1

/-- The spec's §8 frequency table for the read `TCAGA` with `k = 3`. -/
def dictTCAGA : List (Str × Nat) :=
  [(['T', 'C', 'A'], 1), (['C', 'A', 'G'], 1), (['A', 'G', 'A'], 1)]

/-- The graph the §8 scenario builds. -/
def GT : DiGraph := build_graph dictTCAGA

/-- A plain bubble-free chain `a→b→c`. -/
def Gchain : DiGraph :=
  (DiGraph.empty.add_edge sA sB 1).add_edge sB sC 1

/-- The two reads `ACA` and `ACT` sharing the 2-mer `AC`. -/
def readsACA : List Str := [['A', 'C', 'A'], ['A', 'C', 'T']]

/-! ## Library lemmas about node removal -/

/-- Membership in the nodes after `remove_node`. -/
theorem mem_nodes_removeNode (g : DiGraph) (n m : Str) :
    m ∈ (g.removeNode n).nodes ↔ m ∈ g.nodes ∧ m ≠ n := by
  simp [DiGraph.removeNode, List.mem_filter]

/-- Membership in the edges after `remove_node`. -/
theorem mem_edges_removeNode (g : DiGraph) (n : Str) (e : Str × Str × Nat) :
    e ∈ (g.removeNode n).edges ↔ e ∈ g.edges ∧ e.1 ≠ n ∧ e.2.1 ≠ n := by
  simp [DiGraph.removeNode, List.mem_filter]

/-- Membership in the nodes after `remove_nodes_from`. -/
theorem mem_nodes_removeNodesFrom (g : DiGraph) (l : List Str) (m : Str) :
    m ∈ (g.removeNodesFrom l).nodes ↔ m ∈ g.nodes ∧ m ∉ l := by
  induction l generalizing g with
  | nil => simp [DiGraph.removeNodesFrom]
  | cons x xs ih =>
    simp only [DiGraph.removeNodesFrom, List.foldl_cons] at ih ⊢
    rw [ih, mem_nodes_removeNode]
    simp only [List.mem_cons]
    tauto

/-- Membership in the edges after `remove_nodes_from`. -/
theorem mem_edges_removeNodesFrom (g : DiGraph) (l : List Str)
    (e : Str × Str × Nat) :
    e ∈ (g.removeNodesFrom l).edges ↔ e ∈ g.edges ∧ e.1 ∉ l ∧ e.2.1 ∉ l := by
  induction l generalizing g with
  | nil => simp [DiGraph.removeNodesFrom]
  | cons x xs ih =>
    simp only [DiGraph.removeNodesFrom, List.foldl_cons] at ih ⊢
    rw [ih, mem_edges_removeNode]
    simp only [List.mem_cons]
    tauto

/-- Membership in the nodes after `remove_paths`: a node survives exactly
when it is not an eligible deletion of any listed path. -/
theorem mem_nodes_remove_paths (g : DiGraph) (pl : List (List Str))
    (de ds : Bool) (m : Str) :
    m ∈ (remove_paths g pl de ds).nodes ↔
      m ∈ g.nodes ∧ ∀ p ∈ pl, m ∉ nodesToDelete p de ds := by
  induction pl generalizing g with
  | nil => simp [remove_paths]
  | cons p ps ih =>
    simp only [remove_paths, List.foldl_cons] at ih ⊢
    rw [ih, mem_nodes_removeNodesFrom]
    simp only [List.mem_cons]
    constructor
    · rintro ⟨⟨hg, hp⟩, hps⟩
      exact ⟨hg, by rintro q (rfl | hq); exact hp; exact hps q hq⟩
    · rintro ⟨hg, hall⟩
      exact ⟨⟨hg, hall p (Or.inl rfl)⟩, fun q hq => hall q (Or.inr hq)⟩

/-- Membership in the edges after `remove_paths`: an edge survives
exactly when neither endpoint is an eligible deletion of any listed
path. -/
theorem mem_edges_remove_paths (g : DiGraph) (pl : List (List Str))
    (de ds : Bool) (e : Str × Str × Nat) :
    e ∈ (remove_paths g pl de ds).edges ↔
      e ∈ g.edges ∧ ∀ p ∈ pl,
        e.1 ∉ nodesToDelete p de ds ∧ e.2.1 ∉ nodesToDelete p de ds := by
  induction pl generalizing g with
  | nil => simp [remove_paths]
  | cons p ps ih =>
    simp only [remove_paths, List.foldl_cons] at ih ⊢
    rw [ih, mem_edges_removeNodesFrom]
    simp only [List.mem_cons]
    constructor
    · rintro ⟨⟨hg, h1, h2⟩, hps⟩
      exact ⟨hg, by
        rintro q (rfl | hq)
        · exact ⟨h1, h2⟩
        · exact hps q hq⟩
    · rintro ⟨hg, hall⟩
      exact ⟨⟨hg, (hall p (Or.inl rfl)).1, (hall p (Or.inl rfl)).2⟩,
        fun q hq => hall q (Or.inr hq)⟩

/-- With both flags false the eligible deletions of a path are its
interior. -/
theorem nodesToDelete_false_false (p : List Str) :
    nodesToDelete p false false = (p.drop 1).dropLast := by
  simp [nodesToDelete]

/-- A path of at most two nodes has no interior, hence contributes no
deletion when both flags are false. -/
theorem nodesToDelete_short (p : List Str) (h : p.length ≤ 2) :
    nodesToDelete p false false = [] := by
  rw [nodesToDelete_false_false]
  match p, h with
  | [], _ => rfl
  | [_], _ => rfl
  | [_, _], _ => rfl

/-! ## C1: the full-tie branch of `select_best_path` crashes -/

/-- C1: `select_best_path` on `N ≥ 2` fully tied candidate paths is
claimed to keep a single survivor chosen by the seeded source.  Instead,
for every possible value of the `random.randint(0, len(path_list))` draw
the call raises: the drawn count is used as an index into `path_list`
(an `IndexError` when the draw equals the list length), and the selected
element — a path, not an integer — is then used as a slice bound (a
`TypeError`).  The spec itself records this slip in §9 ("tie-break
selection bug"). -/
theorem select_best_path_full_tie_crashes :
    ∀ rand : Nat,
      select_best_path G1 [[sA, sB, sD], [sA, sC, sD]] [3, 3]
        [⟨1, 1⟩, ⟨1, 1⟩] false false rand
      = .error (if rand < 2 then PyError.typeError else PyError.indexError) := by
  intro rand
  have hW : stdevPosF [⟨1, 1⟩, ⟨1, 1⟩] = .ok false := by decide
  have hL : stdevPosN [3, 3] = .ok false := by decide
  simp only [select_best_path, hW, hL]
  by_cases h : rand < 2
  · simp [h]
  · simp [h]

/-! ## C2: `simplify_bubbles` loops forever instead of raising a
non-termination error -/

/-- C2: on the graph `G2` — a bubble between `a` and `d` whose losing
branch is the single direct edge `a→d` — the detection pass finds the
bubble `(a, d)`, resolving it removes no node (the losing path has no
interior), and therefore `simplify_bubbles` recurses forever: its
recursion exhausts every finite bound (`fuelOut` for every fuel value and
every random stream).  No `NonTerminationError` guard exists anywhere in
the code. -/
theorem simplify_bubbles_no_progress_nonterminating :
    detectBubble G2 = .ok (some (some sA, sD)) ∧
    (∀ r, solve_bubble G2 sA sD r = .ok G2) ∧
    ∀ (rands : Nat → Nat) (fuel : Nat),
      simplify_bubbles rands fuel G2 = .error .fuelOut := by
  have hdet : detectBubble G2 = .ok (some (some sA, sD)) := by decide
  have hsolve : ∀ r, solve_bubble G2 sA sD r = .ok G2 := by
    intro r
    have hG : G2.all_simple_paths sA sD = [[sA, sD], [sA, sB, sD]] := by
      decide
    have hM : ([[sA, sD], [sA, sB, sD]] : List (List Str)).mapM
        (fun p => path_average_weight G2 p) = .ok [⟨1, 1⟩, ⟨19, 3⟩] := by
      decide
    have hW : stdevPosF [⟨1, 1⟩, ⟨19, 3⟩] = .ok true := by decide
    simp only [solve_bubble, hG, hM, select_best_path, hW]
    decide
  refine ⟨hdet, hsolve, ?_⟩
  intro rands fuel
  induction fuel with
  | zero => rfl
  | succ f ih => simp only [simplify_bubbles, hdet, hsolve, ih]

/-! ## C3: `build_graph` builds exactly the prefix/suffix edge per k-mer -/

/-- Adding a node never touches the edges. -/
theorem edges_addNode (g : DiGraph) (n : Str) : (g.addNode n).edges = g.edges := by
  unfold DiGraph.addNode
  split <;> rfl

/-- Node membership after adding a node. -/
theorem mem_nodes_addNode (g : DiGraph) (n m : Str) :
    m ∈ (g.addNode n).nodes ↔ m ∈ g.nodes ∨ m = n := by
  unfold DiGraph.addNode
  split
  · rename_i h
    constructor
    · exact Or.inl
    · rintro (hm | rfl)
      · exact hm
      · exact h
  · simp

/-- Node membership after adding an edge. -/
theorem mem_nodes_add_edge (g : DiGraph) (u v : Str) (w : Nat) (m : Str) :
    m ∈ (g.add_edge u v w).nodes ↔ m ∈ g.nodes ∨ m = u ∨ m = v := by
  unfold DiGraph.add_edge
  split <;>
    simp only [mem_nodes_addNode] <;> tauto

/-- Adding a fresh edge appends it. -/
theorem edges_add_edge_fresh (g : DiGraph) (u v : Str) (w : Nat)
    (h : ∀ e ∈ g.edges, ¬(e.1 = u ∧ e.2.1 = v)) :
    (g.add_edge u v w).edges = g.edges ++ [(u, v, w)] := by
  have hEdges : ((g.addNode u).addNode v).edges = g.edges := by
    rw [edges_addNode, edges_addNode]
  have hHas : ((g.addNode u).addNode v).hasEdge u v = false := by
    unfold DiGraph.hasEdge
    rw [hEdges]
    simp only [List.any_eq_false, decide_eq_true_eq]
    intro e he
    simpa using h e he
  unfold DiGraph.add_edge
  rw [hHas]
  simp only [Bool.false_eq_true, if_false, hEdges]

/-- An equally long string of length at least 2 is determined by its
prefix `s[:-1]` and suffix `s[1:]`. -/
theorem pair_inj (s t : Str) (hlen : s.length = t.length) (h2 : 2 ≤ s.length)
    (hpre : s.dropLast = t.dropLast) (hsuf : s.drop 1 = t.drop 1) : s = t := by
  apply List.ext_getElem hlen
  intro i h1 h1'
  by_cases hi : i + 1 < s.length
  · have hd : i < s.dropLast.length := by
      rw [List.length_dropLast]; omega
    have hd' : i < t.dropLast.length := by
      rw [List.length_dropLast]; omega
    calc s[i] = s.dropLast[i] := (List.getElem_dropLast s i hd).symm
    _ = t.dropLast[i] := by congr 1
    _ = t[i] := List.getElem_dropLast t i hd'
  · have hi1 : 1 ≤ i := by omega
    have hdp : i - 1 < (s.drop 1).length := by
      rw [List.length_drop]; omega
    have hdp' : i - 1 < (t.drop 1).length := by
      rw [List.length_drop]; omega
    have e1 : s[i] = (s.drop 1)[i-1] := by
      rw [List.getElem_drop]
      congr 1
      omega
    have e2 : t[i] = (t.drop 1)[i-1] := by
      rw [List.getElem_drop]
      congr 1
      omega
    rw [e1, e2]
    congr 1

/-- A list whose image is duplicate-free admits no two elements with the
same image. -/
theorem nodup_map_inj_on {α β : Type} (f : α → β) (l : List α)
    (h : (l.map f).Nodup) :
    ∀ x ∈ l, ∀ y ∈ l, f x = f y → x = y := by
  induction l with
  | nil => simp
  | cons a t ih =>
    simp only [List.map_cons, List.nodup_cons] at h
    obtain ⟨hna, ht⟩ := h
    intro x hx y hy hf
    rcases List.mem_cons.mp hx with rfl | hx' <;>
      rcases List.mem_cons.mp hy with rfl | hy'
    · rfl
    · exact absurd (hf ▸ List.mem_map_of_mem f hy') hna
    · exact absurd (hf ▸ List.mem_map_of_mem f hx') (by
        intro hc
        exact hna hc)
    · exact ih ht x hx' y hy' hf

/-- Node membership through the `build_graph` fold. -/
theorem build_graph_foldl_nodes (d : List (Str × Nat)) (g0 : DiGraph) (m : Str) :
    m ∈ (d.foldl (fun g kv => g.add_edge kv.1.dropLast (kv.1.drop 1) kv.2) g0).nodes ↔
      m ∈ g0.nodes ∨ ∃ kv ∈ d, m = kv.1.dropLast ∨ m = kv.1.drop 1 := by
  induction d generalizing g0 with
  | nil => simp
  | cons kv rest ih =>
    simp only [List.foldl_cons]
    rw [ih, mem_nodes_add_edge]
    simp only [List.mem_cons]
    constructor
    · rintro ((hg | h1 | h2) | ⟨kv', hkv', hor⟩)
      · exact Or.inl hg
      · exact Or.inr ⟨kv, Or.inl rfl, Or.inl h1⟩
      · exact Or.inr ⟨kv, Or.inl rfl, Or.inr h2⟩
      · exact Or.inr ⟨kv', Or.inr hkv', hor⟩
    · rintro (hg | ⟨kv', (rfl | hkv'), hor⟩)
      · exact Or.inl (Or.inl hg)
      · exact Or.inl (Or.inr hor)
      · exact Or.inr ⟨kv', hkv', hor⟩

/-- Edge list through the `build_graph` fold, when every entry's
prefix/suffix pair is fresh and the pairs are pairwise distinct. -/
theorem build_graph_foldl_edges (d : List (Str × Nat)) (g0 : DiGraph)
    (hfresh : ∀ kv ∈ d, ∀ e ∈ g0.edges,
      ¬(e.1 = kv.1.dropLast ∧ e.2.1 = kv.1.drop 1))
    (hpair : (d.map (fun kv => (kv.1.dropLast, kv.1.drop 1))).Nodup) :
    (d.foldl (fun g kv => g.add_edge kv.1.dropLast (kv.1.drop 1) kv.2) g0).edges =
      g0.edges ++ d.map (fun kv => (kv.1.dropLast, kv.1.drop 1, kv.2)) := by
  induction d generalizing g0 with
  | nil => simp
  | cons kv rest ih =>
    simp only [List.foldl_cons, List.map_cons]
    have h1 : (g0.add_edge kv.1.dropLast (kv.1.drop 1) kv.2).edges =
        g0.edges ++ [(kv.1.dropLast, kv.1.drop 1, kv.2)] :=
      edges_add_edge_fresh g0 _ _ _ (hfresh kv (List.mem_cons_self kv rest))
    simp only [List.map_cons, List.nodup_cons] at hpair
    rw [ih (g0.add_edge kv.1.dropLast (kv.1.drop 1) kv.2) ?_ hpair.2]
    · rw [h1]
      simp
    · intro kv' hkv' e he
      rw [h1] at he
      rcases List.mem_append.mp he with he0 | heL
      · exact hfresh kv' (List.mem_cons_of_mem kv hkv') e he0
      · rw [List.mem_singleton] at heL
        subst heL
        rintro ⟨hp, hs⟩
        simp only at hp hs
        exact hpair.1 (by
          rw [hp, hs]
          exact List.mem_map_of_mem _ hkv')

/-- C3: for a table of distinct length-`k` k-mers (`k ≥ 2`), `build_graph`
produces exactly one edge per entry — from the k-mer's prefix to its
suffix, weighted by its count, with no two edges sharing an ordered node
pair — and its node set is exactly the prefixes and suffixes of the
entries; the empty table gives the empty graph, and no input errors (the
function is total). -/
theorem build_graph_spec (d : List (Str × Nat)) (k : Nat) (hk : 2 ≤ k)
    (hlen : ∀ kv ∈ d, kv.1.length = k) (hnd : (d.map Prod.fst).Nodup) :
    build_graph [] = DiGraph.empty ∧
    (∀ n, n ∈ (build_graph d).nodes ↔
      ∃ kv ∈ d, n = kv.1.dropLast ∨ n = kv.1.drop 1) ∧
    (build_graph d).edges =
      d.map (fun kv => (kv.1.dropLast, kv.1.drop 1, kv.2)) ∧
    ((build_graph d).edges.map (fun e => (e.1, e.2.1))).Nodup := by
  have hpair : (d.map (fun kv => (kv.1.dropLast, kv.1.drop 1))).Nodup := by
    have hinj : ∀ x ∈ d, ∀ y ∈ d,
        (fun kv : Str × Nat => (kv.1.dropLast, kv.1.drop 1)) x =
          (fun kv : Str × Nat => (kv.1.dropLast, kv.1.drop 1)) y → x = y := by
      intro x hx y hy hf
      simp only [Prod.mk.injEq] at hf
      have hkx : x.1 = y.1 :=
        pair_inj x.1 y.1 (by rw [hlen x hx, hlen y hy])
          (by rw [hlen x hx]; exact hk) hf.1 hf.2
      exact nodup_map_inj_on Prod.fst d hnd x hx y hy hkx
    exact (List.Nodup.of_map Prod.fst hnd).map_on hinj
  have hedges : (build_graph d).edges =
      d.map (fun kv => (kv.1.dropLast, kv.1.drop 1, kv.2)) := by
    have := build_graph_foldl_edges d DiGraph.empty (by simp [DiGraph.empty]) hpair
    simpa [build_graph, DiGraph.empty] using this
  refine ⟨rfl, ?_, hedges, ?_⟩
  · intro n
    have := build_graph_foldl_nodes d DiGraph.empty n
    simpa [build_graph, DiGraph.empty] using this
  · rw [hedges]
    rw [List.map_map]
    exact hpair

/-- C3 witness: the spec's §8 table (`TCA`, `CAG`, `AGA`, each once)
satisfies the hypotheses, and the built edge list is exactly the three
prefix→suffix edges. -/
theorem build_graph_spec_witness :
    (build_graph dictTCAGA).edges =
      dictTCAGA.map (fun kv => (kv.1.dropLast, kv.1.drop 1, kv.2)) :=
  (build_graph_spec dictTCAGA 3 (by decide) (by decide) (by decide)).2.2.1

/-! ## C4: `path_average_weight` averages the induced subgraph, not the
consecutive edges -/

/-- C4 counterexample: on the graph `a→b(1), b→c(1), a→c(10)` and the
path `[a,b,c]`, the claimed mean over consecutive pairs is `1`, but the
code averages every edge of the induced subgraph — including the chord
`a→c` — and returns `4`.  Moreover on the path `[b,a]`, whose only
consecutive pair `b→a` is not an edge, the claim demands
`InvalidPathError`, but the code happily averages the reverse edge
`a→b` (induced by the node set) and returns `1`. -/
theorem path_average_weight_counterexample :
    path_average_weight G4 [sA, sB, sC] = .ok ⟨12, 3⟩ ∧
    Frac.val ⟨12, 3⟩ = 4 ∧
    meanWeightSpec G4 [sA, sB, sC] = .ok ⟨2, 2⟩ ∧
    Frac.val ⟨2, 2⟩ = 1 ∧
    path_average_weight G4 [sB, sA] = .ok ⟨1, 1⟩ ∧
    meanWeightSpec G4 [sB, sA] = .error .invalidPath := by
  refine ⟨by decide, by norm_num [Frac.val], by decide, by norm_num [Frac.val],
    by decide, by decide⟩

/-- C4 amended: `path_average_weight` returns the arithmetic mean of the
weights of *all* graph edges with both endpoints on the path (the induced
subgraph), and fails — with `StatisticsError`, not `InvalidPathError` —
exactly when that subgraph has no edge; in particular a genuine walk of
at least two nodes never fails, but a missing consecutive edge alone does
not cause a failure. -/
theorem path_average_weight_amended (g : DiGraph) (p : List Str) :
    (path_average_weight g p = .error .statisticsError ↔
      g.subgraphEdges p = []) ∧
    (∀ q, path_average_weight g p = .ok q →
      q = ⟨((g.subgraphEdges p).map (fun e => e.2.2)).sum,
        (g.subgraphEdges p).length⟩) ∧
    (2 ≤ p.length →
      (∀ uv ∈ p.zip (p.drop 1), g.hasEdge uv.1 uv.2 = true) →
      ∃ q, path_average_weight g p = .ok q) := by
  refine ⟨?_, ?_, ?_⟩
  · unfold path_average_weight
    by_cases h : ((g.subgraphEdges p).map (fun e => e.2.2)).length = 0
    · rw [if_pos h]
      simp only [List.length_map] at h
      simp [List.length_eq_zero.mp h]
    · rw [if_neg h]
      simp only [List.length_map] at h
      constructor
      · intro hc; cases hc
      · intro hc
        rw [hc] at h
        simp at h
  · intro q hq
    unfold path_average_weight at hq
    by_cases h : ((g.subgraphEdges p).map (fun e => e.2.2)).length = 0
    · rw [if_pos h] at hq; cases hq
    · rw [if_neg h] at hq
      cases hq
      simp [List.length_map]
  · intro h2 hcons
    match p, h2 with
    | a :: b :: rest, _ =>
      have hab : g.hasEdge a b = true := by
        apply hcons (a, b)
        simp [List.zip_cons_cons]
      unfold DiGraph.hasEdge at hab
      rw [List.any_eq_true] at hab
      obtain ⟨e, he, hpe⟩ := hab
      rw [decide_eq_true_eq] at hpe
      have hmem : e ∈ g.subgraphEdges (a :: b :: rest) := by
        unfold DiGraph.subgraphEdges
        rw [List.mem_filter]
        refine ⟨he, ?_⟩
        rw [decide_eq_true_eq]
        constructor
        · rw [hpe.1]; exact List.mem_cons_self a _
        · rw [hpe.2]; exact List.mem_cons_of_mem a (List.mem_cons_self b _)
      have hne : ((g.subgraphEdges (a :: b :: rest)).map
          (fun e => e.2.2)).length ≠ 0 := by
        simp only [List.length_map, ne_eq, List.length_eq_zero]
        intro hc
        rw [hc] at hmem
        cases hmem
      refine ⟨⟨((g.subgraphEdges (a :: b :: rest)).map (fun e => e.2.2)).sum,
        ((g.subgraphEdges (a :: b :: rest)).map (fun e => e.2.2)).length⟩, ?_⟩
      unfold path_average_weight
      rw [if_neg hne]

/-- C4 amended, witness: on `G4` the walk `[a, b]` has every consecutive
pair an edge and at least two nodes, so the mean succeeds. -/
theorem path_average_weight_amended_witness :
    ∃ q, path_average_weight G4 [sA, sB] = .ok q :=
  (path_average_weight_amended G4 [sA, sB]).2.2 (by decide) (by decide)

/-! ## C5: `select_best_path` can delete a node of the retained path -/

/-- C5 counterexample: the two candidate paths `[a,x,y,d]` (mean 10,
retained) and `[a,x,z,d]` (mean 4, discarded) share the interior node
`x`; removing the discarded path's interior `[x,z]` also deletes `x`,
a node of the retained path, leaving the winner broken. -/
theorem select_best_path_removes_retained_node :
    select_best_path G5 [[sA, sX, sY, sD], [sA, sX, sZ, sD]] [4, 4]
      [⟨30, 3⟩, ⟨12, 3⟩] false false 0
      = .ok ⟨[sA, sY, sD], [(sY, sD, 10)]⟩ ∧
    sX ∈ ([sA, sX, sY, sD] : List Str) ∧
    sX ∈ G5.nodes ∧
    sX ∉ (⟨[sA, sY, sD], [(sY, sD, 10)]⟩ : DiGraph).nodes := by
  refine ⟨by decide, by decide, by decide, by decide⟩

/-- A fold that at each step keeps either the accumulator or the next
element stays inside the starting value and the list. -/
theorem foldl_bltV_mem (l : List Frac) (a : Frac) :
    l.foldl (fun acc z => if acc.bltV z then z else acc) a = a ∨
      l.foldl (fun acc z => if acc.bltV z then z else acc) a ∈ l := by
  induction l generalizing a with
  | nil => exact Or.inl rfl
  | cons x xs ih =>
    simp only [List.foldl_cons]
    rcases ih (if a.bltV x then x else a) with h | h
    · rw [h]
      by_cases hb : a.bltV x
      · simp only [hb, if_true]
        exact Or.inr (List.mem_cons_self x xs)
      · simp only [hb, if_false]
        exact Or.inl rfl
    · exact Or.inr (List.mem_cons_of_mem x h)

/-- Python's `max` of a nonempty list is an element of it. -/
theorem maxF_mem (xs : List Frac) (h : xs ≠ []) : maxF xs ∈ xs := by
  match xs, h with
  | x :: rest, _ =>
    rcases foldl_bltV_mem (x :: rest) ((x :: rest).headD ⟨0, 1⟩) with h1 | h1
    · rw [maxF, h1]
      exact List.mem_cons_self x rest
    · exact h1

/-- Python's `max` of a nonempty natural list is an element of it. -/
theorem maxN_mem (xs : List Nat) (h : xs ≠ []) : maxN xs ∈ xs := by
  match xs, h with
  | x :: rest, _ =>
    have : ∀ (l : List Nat) (a : Nat), l.foldl max a = a ∨ l.foldl max a ∈ l := by
      intro l
      induction l with
      | nil => exact fun a => Or.inl rfl
      | cons y ys ih =>
        intro a
        simp only [List.foldl_cons]
        rcases ih (max a y) with h1 | h1
        · rw [h1]
          rcases max_choice a y with h2 | h2
          · exact Or.inl h2
          · rw [h2]; exact Or.inr (List.mem_cons_self y ys)
        · exact Or.inr (List.mem_cons_of_mem y h1)
    rcases this (x :: rest) ((x :: rest).headD 0) with h1 | h1
    · rw [maxN, h1]
      exact List.mem_cons_self x rest
    · exact h1

/-- Value equality is reflexive. -/
theorem beqV_refl (x : Frac) : x.beqV x = true := by
  simp [Frac.beqV]

/-- The index `xs.index (max xs)` is in range for a nonempty list. -/
theorem idxMaxF_lt (xs : List Frac) (h : xs ≠ []) : idxMaxF xs < xs.length :=
  List.findIdx_lt_length_of_exists ⟨maxF xs, maxF_mem xs h, beqV_refl _⟩

/-- The index `xs.index (max xs)` is in range for a nonempty length
list. -/
theorem idxMaxN_lt (xs : List Nat) (h : xs ≠ []) : idxMaxN xs < xs.length :=
  List.findIdx_lt_length_of_exists ⟨maxN xs, maxN_mem xs h, by simp⟩

/-- `stdev` only returns on at least two data points. -/
theorem stdevPosF_ok_length (xs : List Frac) (b : Bool)
    (h : stdevPosF xs = .ok b) : 2 ≤ xs.length := by
  match xs, h with
  | x :: y :: rest, _ => simp only [List.length_cons]; omega

/-- `stdev` only returns on at least two data points (length list). -/
theorem stdevPosN_ok_length (xs : List Nat) (b : Bool)
    (h : stdevPosN xs = .ok b) : 2 ≤ xs.length := by
  match xs, h with
  | x :: y :: rest, _ => simp only [List.length_cons]; omega

/-- Dropping one in-range entry shortens a list by exactly one. -/
theorem dropAt_length (l : List (List Str)) (i : Nat) (h : i < l.length) :
    (dropAt l i).length + 1 = l.length := by
  simp only [dropAt, List.length_append, List.length_take, List.length_drop]
  omega

/-- C5 amended: whenever `select_best_path` returns a graph at all (the
full-tie branch never does), it discards every path but the selected
winner — exactly `N−1` of the `N` candidates — and removes from the graph
exactly the union of the discarded paths' eligible nodes: interiors
always, first nodes only under `delete_entry_node`, last nodes only under
`delete_sink_node`.  A node of the retained path therefore survives if
and only if it is not an eligible node of some discarded path — the
unshared-interior condition the counterexample forces. -/
theorem select_best_path_removal_charac (g : DiGraph) (pl : List (List Str))
    (lens : List Nat) (ws : List Frac) (de ds : Bool) (rand : Nat)
    (g' : DiGraph) (hws : ws.length = pl.length)
    (hlens : lens.length = pl.length)
    (hok : select_best_path g pl lens ws de ds rand = .ok g') :
    ∃ dl, sbpDiscarded pl lens ws = some dl ∧ dl.length + 1 = pl.length ∧
      ∀ n, n ∈ g'.nodes ↔
        n ∈ g.nodes ∧ ∀ p ∈ dl, n ∉ nodesToDelete p de ds := by
  unfold select_best_path at hok
  cases hW : stdevPosF ws with
  | error e => rw [hW] at hok; cases hok
  | ok bw =>
    rw [hW] at hok
    cases bw with
    | true =>
      have hne : ws ≠ [] := by
        have := stdevPosF_ok_length ws true hW
        intro hc; rw [hc] at this; simp at this
      have hlt : idxMaxF ws < pl.length := by
        rw [← hws]; exact idxMaxF_lt ws hne
      refine ⟨dropAt pl (idxMaxF ws), by simp [sbpDiscarded, hW],
        dropAt_length pl _ hlt, ?_⟩
      have hg' : g' = remove_paths g (dropAt pl (idxMaxF ws)) de ds := by
        cases hok; rfl
      intro n
      rw [hg']
      exact mem_nodes_remove_paths g _ de ds n
    | false =>
      cases hL : stdevPosN lens with
      | error e => rw [hL] at hok; cases hok
      | ok bl =>
        rw [hL] at hok
        cases bl with
        | true =>
          have hne : lens ≠ [] := by
            have := stdevPosN_ok_length lens true hL
            intro hc; rw [hc] at this; simp at this
          have hlt : idxMaxN lens < pl.length := by
            rw [← hlens]; exact idxMaxN_lt lens hne
          refine ⟨dropAt pl (idxMaxN lens), by simp [sbpDiscarded, hW, hL],
            dropAt_length pl _ hlt, ?_⟩
          have hg' : g' = remove_paths g (dropAt pl (idxMaxN lens)) de ds := by
            cases hok; rfl
          intro n
          rw [hg']
          exact mem_nodes_remove_paths g _ de ds n
        | false =>
          by_cases hr : rand < pl.length
          · rw [if_pos hr] at hok; cases hok
          · rw [if_neg hr] at hok; cases hok

/-- C5 amended, witness: the `G5` competition (the counterexample input)
reaches the removal step, discards exactly one of its two candidates, and
the surviving node set is characterized by the discarded interiors. -/
theorem select_best_path_removal_charac_witness :
    ∃ dl, sbpDiscarded [[sA, sX, sY, sD], [sA, sX, sZ, sD]] [4, 4]
        [⟨30, 3⟩, ⟨12, 3⟩] = some dl ∧
      dl.length + 1 = 2 ∧
      ∀ n, n ∈ (⟨[sA, sY, sD], [(sY, sD, 10)]⟩ : DiGraph).nodes ↔
        n ∈ G5.nodes ∧ ∀ p ∈ dl, n ∉ nodesToDelete p false false :=
  select_best_path_removal_charac G5 [[sA, sX, sY, sD], [sA, sX, sZ, sD]]
    [4, 4] [⟨30, 3⟩, ⟨12, 3⟩] false false 0
    ⟨[sA, sY, sD], [(sY, sD, 10)]⟩ (by decide) (by decide) (by decide)

/-! ## C7: `build_kmer_dict` resets counts per read instead of
accumulating them -/

/-- C7: the 2-mer `AC` occurs once in each of the reads `ACA` and `ACT`,
so the claimed accumulated count is `2`; but the code zeroes every k-mer
of a read before re-counting it, so the count from the earlier read is
lost and the final table maps `AC` to `1` — contradicting both the claim
and the function's own docstring ("all kmer occurrences in the fastq
file"). -/
theorem build_kmer_dict_resets_counts :
    dictLookup (build_kmer_dict readsACA 2) ['A', 'C'] = some 1 ∧
    specTotalKmerCount readsACA 2 ['A', 'C'] = 2 := by
  refine ⟨by decide, by decide⟩

/-! ## C8: sources and sinks need not be disjoint -/

/-- C8 counterexample: the graph `G8` has the edge `a→b` and the isolated
node `c` (node removal routinely leaves such nodes behind); `c` has
neither predecessors nor successors, so it is returned both by
`get_starting_nodes` and by `get_sink_nodes` even though the graph has an
edge. -/
theorem starting_sink_not_disjoint :
    G8.edges ≠ [] ∧
    sC ∈ get_starting_nodes G8 ∧
    sC ∈ get_sink_nodes G8 := by
  refine ⟨by decide, by decide, by decide⟩

/-! ## C10: `remove_paths` can remove the first node of a listed path -/

/-- C10 counterexample: with both flags false, removing the paths
`[[a,b,c],[b,d]]` deletes `b` — the interior of the first path but the
*first node* of the second listed path — so "never removes the first or
last node of any listed path" fails as soon as paths overlap. -/
theorem remove_paths_removes_listed_head :
    remove_paths G10 [[sA, sB, sC], [sB, sD]] false false
      = ⟨[sA, sC, sD], []⟩ ∧
    ([sB, sD] : List Str) ∈ [[sA, sB, sC], [sB, sD]] ∧
    ([sB, sD] : List Str).head? = some sB ∧
    sB ∈ G10.nodes ∧
    sB ∉ (⟨[sA, sC, sD], []⟩ : DiGraph).nodes := by
  refine ⟨by decide, by decide, by decide, by decide, by decide⟩

/-- C10 amended: with both flags false, `remove_paths` removes exactly
the union of the listed paths' interiors — a node is removed iff it lies
in the interior `path[1:-1]` of some listed path (so a path's own
endpoints are spared, but an endpoint interior to *another* path is not);
a listed path of at most 2 nodes contributes no removal at all; and an
edge survives exactly when neither endpoint lies in any listed interior —
in particular a losing branch that is a single direct edge is left
intact, since node removal is the only way `solve_bubble` ever deletes
edges. -/
theorem remove_paths_interior_only (g : DiGraph) (pl : List (List Str)) :
    (∀ n, n ∈ (remove_paths g pl false false).nodes ↔
      n ∈ g.nodes ∧ ∀ p ∈ pl, n ∉ (p.drop 1).dropLast) ∧
    (∀ p ∈ pl, p.length ≤ 2 → nodesToDelete p false false = []) ∧
    (∀ e, e ∈ (remove_paths g pl false false).edges ↔
      e ∈ g.edges ∧ ∀ p ∈ pl,
        e.1 ∉ (p.drop 1).dropLast ∧ e.2.1 ∉ (p.drop 1).dropLast) := by
  refine ⟨?_, fun p _ h => nodesToDelete_short p h, ?_⟩
  · intro n
    rw [mem_nodes_remove_paths]
    simp only [nodesToDelete_false_false]
  · intro e
    rw [mem_edges_remove_paths]
    simp only [nodesToDelete_false_false]

/-! ## C8 amended: source characterization and conditional disjointness -/

/-- C8 amended: for *every* graph, `get_starting_nodes` returns exactly
the nodes with in-degree 0 — no side condition; and the source and sink
sets are disjoint whenever each node of the graph has at least one
incident edge — the extra hypothesis (scoped to this conjunct alone) the
isolated-node counterexample forces; every graph freshly built by
`build_graph` satisfies it, node removal may not. -/
theorem starting_nodes_charac_and_disjoint (g : DiGraph) :
    (∀ n, n ∈ get_starting_nodes g ↔
      n ∈ g.nodes ∧ ∀ e ∈ g.edges, e.2.1 ≠ n) ∧
    ((∀ n ∈ g.nodes, ∃ e ∈ g.edges, e.1 = n ∨ e.2.1 = n) →
      ∀ n, n ∈ get_starting_nodes g → n ∉ get_sink_nodes g) := by
  have hstart : ∀ n, n ∈ get_starting_nodes g ↔
      n ∈ g.nodes ∧ ∀ e ∈ g.edges, e.2.1 ≠ n := by
    intro n
    simp only [get_starting_nodes, List.mem_filter, DiGraph.predecessors,
      decide_eq_true_eq, List.length_eq_zero, List.map_eq_nil_iff,
      List.filter_eq_nil_iff, decide_eq_true_eq]
  refine ⟨hstart, ?_⟩
  intro hinc n hn hsink
  have hs : n ∈ g.nodes ∧ ∀ e ∈ g.edges, e.1 ≠ n := by
    simpa only [get_sink_nodes, List.mem_filter, DiGraph.successors,
      decide_eq_true_eq, List.length_eq_zero, List.map_eq_nil_iff,
      List.filter_eq_nil_iff, decide_eq_true_eq] using hsink
  obtain ⟨hmem, hnopred⟩ := (hstart n).mp hn
  obtain ⟨e, he, hend⟩ := hinc n hmem
  rcases hend with h1 | h2
  · exact hs.2 e he h1
  · exact hnopred e he h2

/-- C8 amended, witness: the unconditional characterization evaluated on
the isolated node `c` of `G8` itself — `c` is a source because nothing
points at it — and the disjointness conjunct discharged on the chain
`a→b→c`, where every node touches an edge and the source `a` is indeed
not a sink. -/
theorem starting_nodes_charac_and_disjoint_witness :
    (sC ∈ get_starting_nodes G8 ↔
      sC ∈ G8.nodes ∧ ∀ e ∈ G8.edges, e.2.1 ≠ sC) ∧
    sA ∉ get_sink_nodes Gchain :=
  ⟨(starting_nodes_charac_and_disjoint G8).1 sC,
    (starting_nodes_charac_and_disjoint Gchain).2 (by decide) sA (by decide)⟩


/-! ## Walks, reachability and the DAG lemmas

Infrastructure relating the executable bounded reachability of the
embedding to walks and simple paths, used by the bubble claims (C9) and
the contig claims (C6). -/

theorem mem_successors (g : DiGraph) (u s : Str) :
    s ∈ g.successors u ↔ ∃ w, (u, s, w) ∈ g.edges := by
  unfold DiGraph.successors
  rw [List.mem_map]
  constructor
  · rintro ⟨e, he, rfl⟩
    rw [List.mem_filter, decide_eq_true_eq] at he
    exact ⟨e.2.2, by
      have : e = (u, e.2.1, e.2.2) := by
        obtain ⟨e1, e2, e3⟩ := e
        simp only at he ⊢
        rw [he.2]
      rw [← this]
      exact he.1⟩
  · rintro ⟨w, hw⟩
    exact ⟨(u, s, w), by rw [List.mem_filter, decide_eq_true_eq]; exact ⟨hw, rfl⟩, rfl⟩

theorem reachbAux_refl (g : DiGraph) (f : Nat) (u : Str) :
    g.reachbAux f u u = true := by
  cases f with
  | zero => simp [DiGraph.reachbAux]
  | succ f => simp [DiGraph.reachbAux]

theorem reachbAux_to_walk (g : DiGraph) (f : Nat) (u v : Str)
    (h : g.reachbAux f u v = true) : ∃ l, WalkFromTo g l u v := by
  induction f generalizing u with
  | zero =>
    simp only [DiGraph.reachbAux, decide_eq_true_eq] at h
    exact ⟨[u], by simp [WalkFromTo, h]⟩
  | succ f ih =>
    simp only [DiGraph.reachbAux, Bool.or_eq_true, decide_eq_true_eq,
      List.any_eq_true] at h
    rcases h with rfl | ⟨s, hs, hr⟩
    · exact ⟨[u], by simp [WalkFromTo]⟩
    · obtain ⟨l, hl⟩ := ih s hr
      obtain ⟨hh, hlast, hchain⟩ := hl
      have hlne : l ≠ [] := by
        intro hc; rw [hc] at hh; cases hh
      refine ⟨u :: l, ?_, ?_, ?_⟩
      · rfl
      · rw [List.getLast?_cons, hlast]
        cases l with
        | nil => exact absurd rfl hlne
        | cons a t => simp
      · rw [List.chain'_cons']
        refine ⟨?_, hchain⟩
        intro x hx
        rw [hh] at hx
        cases hx
        exact (mem_successors g u s).mp hs

theorem walk_to_reachbAux (g : DiGraph) :
    ∀ (l : List Str) (u v : Str) (f : Nat), WalkFromTo g l u v →
      l.length ≤ f + 1 → g.reachbAux f u v = true := by
  intro l
  induction l with
  | nil =>
    intro u v f hw _
    obtain ⟨hh, _, _⟩ := hw
    cases hh
  | cons a t ih =>
    intro u v f hw hlen
    obtain ⟨hh, hlast, hchain⟩ := hw
    rw [List.head?_cons, Option.some_inj] at hh
    subst hh
    cases t with
    | nil =>
      simp only [List.getLast?_singleton, Option.some_inj] at hlast
      subst hlast
      exact reachbAux_refl g f a
    | cons b t' =>
      obtain ⟨f', rfl⟩ : ∃ f', f = f' + 1 := by
        refine ⟨f - 1, ?_⟩
        simp only [List.length_cons] at hlen
        omega
      simp only [DiGraph.reachbAux, Bool.or_eq_true, List.any_eq_true]
      right
      rw [List.chain'_cons] at hchain
      refine ⟨b, (mem_successors g a b).mpr hchain.1, ?_⟩
      apply ih b v f'
      · refine ⟨rfl, ?_, hchain.2⟩
        rw [List.getLast?_cons_cons] at hlast
        exact hlast
      · simp only [List.length_cons] at hlen ⊢
        omega

theorem not_nodup_decomp {α : Type} (l : List α) (h : ¬ l.Nodup) :
    ∃ (l₁ : List α) (x : α) (l₂ l₃ : List α), l = l₁ ++ x :: l₂ ++ x :: l₃ := by
  induction l with
  | nil => exact absurd List.nodup_nil h
  | cons a t ih =>
    by_cases ha : a ∈ t
    · obtain ⟨s, t₂, rfl⟩ := List.append_of_mem ha
      exact ⟨[], a, s, t₂, rfl⟩
    · have hnt : ¬ t.Nodup := by
        intro hc
        exact h (List.nodup_cons.mpr ⟨ha, hc⟩)
      obtain ⟨l₁, x, l₂, l₃, rfl⟩ := ih hnt
      exact ⟨a :: l₁, x, l₂, l₃, rfl⟩

theorem walk_splice (g : DiGraph) (l₁ l₂ l₃ : List Str) (x u v : Str)
    (hw : WalkFromTo g (l₁ ++ x :: l₂ ++ x :: l₃) u v) :
    WalkFromTo g (l₁ ++ x :: l₃) u v := by
  obtain ⟨hh, hlast, hchain⟩ := hw
  have hsplit1 : (l₁ ++ x :: l₂ ++ x :: l₃) = l₁ ++ ((x :: l₂) ++ (x :: l₃)) := by
    simp
  rw [hsplit1, List.chain'_append] at hchain
  obtain ⟨hc1, hc23, hlink1⟩ := hchain
  rw [List.chain'_append] at hc23
  obtain ⟨hc2, hc3, hlink2⟩ := hc23
  refine ⟨?_, ?_, ?_⟩
  · cases l₁ with
    | nil => simpa using hh
    | cons c l' => simpa using hh
  · rw [hsplit1] at hlast
    rw [List.getLast?_append_of_ne_nil _ (by simp)] at hlast
    rw [List.getLast?_append_of_ne_nil _ (by simp)] at hlast
    rw [List.getLast?_append_of_ne_nil _ (by simp)]
    exact hlast
  · rw [List.chain'_append]
    refine ⟨hc1, hc3, ?_⟩
    intro a ha b hb
    apply hlink1 a ha
    simp only [List.cons_append, List.head?_cons, Option.mem_def,
      Option.some_inj] at hb ⊢
    exact hb

theorem walk_shorten (g : DiGraph) : ∀ (n : Nat) (l : List Str) (u v : Str),
    l.length ≤ n → WalkFromTo g l u v →
    ∃ l', WalkFromTo g l' u v ∧ l'.Nodup ∧ ∀ x ∈ l', x ∈ l := by
  intro n
  induction n with
  | zero =>
    intro l u v hl hw
    obtain ⟨hh, _, _⟩ := hw
    have hnil : l = [] := List.length_eq_zero.mp (by omega)
    rw [hnil] at hh
    cases hh
  | succ n ih =>
    intro l u v hl hw
    by_cases hnd : l.Nodup
    · exact ⟨l, hw, hnd, fun x hx => hx⟩
    · obtain ⟨l₁, x, l₂, l₃, rfl⟩ := not_nodup_decomp l hnd
      have hw' := walk_splice g l₁ l₂ l₃ x u v hw
      have hlen : (l₁ ++ x :: l₃).length ≤ n := by
        simp only [List.length_append, List.length_cons] at hl ⊢
        omega
      obtain ⟨l', h1, h2, h3⟩ := ih (l₁ ++ x :: l₃) u v hlen hw'
      refine ⟨l', h1, h2, fun y hy => ?_⟩
      have := h3 y hy
      simp only [List.mem_append, List.mem_cons] at this ⊢
      tauto

theorem chain_mem_nodes (g : DiGraph)
    (hWF : ∀ e ∈ g.edges, e.1 ∈ g.nodes ∧ e.2.1 ∈ g.nodes) :
    ∀ (l : List Str), l.Chain' (IsEdgeOf g) → 2 ≤ l.length →
      ∀ x ∈ l, x ∈ g.nodes := by
  intro l
  induction l with
  | nil => intro _ h2; simp at h2
  | cons a t ih =>
    intro hc h2 x hx
    cases t with
    | nil => simp at h2
    | cons b t' =>
      rw [List.chain'_cons] at hc
      obtain ⟨⟨w, hw⟩, hct⟩ := hc
      have ha : a ∈ g.nodes := (hWF _ hw).1
      have hb : b ∈ g.nodes := (hWF _ hw).2
      rcases List.mem_cons.mp hx with rfl | hx'
      · exact ha
      · cases t' with
        | nil =>
          rcases List.mem_singleton.mp hx' with rfl
          exact hb
        | cons c t'' =>
          exact ih hct (by simp) x hx'

theorem nodup_subset_length {α : Type} [DecidableEq α] (l L : List α)
    (h : l.Nodup) (hs : ∀ x ∈ l, x ∈ L) : l.length ≤ L.length := by
  calc l.length = l.toFinset.card := (List.toFinset_card_of_nodup h).symm
  _ ≤ L.toFinset.card := Finset.card_le_card (by
      intro x hx
      rw [List.mem_toFinset] at hx
      rw [List.mem_toFinset]
      exact hs x hx)
  _ ≤ L.length := L.toFinset_card_le

theorem walk_to_reaches (g : DiGraph)
    (hWF : ∀ e ∈ g.edges, e.1 ∈ g.nodes ∧ e.2.1 ∈ g.nodes)
    (l : List Str) (u v : Str) (hw : WalkFromTo g l u v) :
    g.reaches u v = true := by
  obtain ⟨l', hw', hnd, _⟩ := walk_shorten g l.length l u v (le_refl _) hw
  cases hlt : l'.length with
  | zero =>
    obtain ⟨hh, _, _⟩ := hw'
    have hnil : l' = [] := List.length_eq_zero.mp hlt
    rw [hnil] at hh
    cases hh
  | succ n =>
    cases n with
    | zero =>
      obtain ⟨hh, hlast, _⟩ := hw'
      obtain ⟨a, rfl⟩ : ∃ a, l' = [a] := by
        match l', hlt with
        | [a], _ => exact ⟨a, rfl⟩
      simp only [List.head?_cons, Option.some_inj] at hh
      simp only [List.getLast?_singleton, Option.some_inj] at hlast
      rw [← hh, ← hlast] at *
      exact reachbAux_refl g g.nodes.length a
    | succ m =>
      have hsub : ∀ x ∈ l', x ∈ g.nodes :=
        chain_mem_nodes g hWF l' hw'.2.2 (by omega)
      have hlen : l'.length ≤ g.nodes.length :=
        nodup_subset_length l' g.nodes hnd hsub
      exact walk_to_reachbAux g l' u v g.nodes.length hw' (by omega)

theorem isDag_iff (g : DiGraph) :
    g.isDag = true ↔ ∀ e ∈ g.edges, g.reaches e.2.1 e.1 = false := by
  unfold DiGraph.isDag
  rw [Bool.not_eq_true', List.any_eq_false]
  constructor
  · intro h e he
    exact Bool.not_eq_true _ ▸ (by simpa using h e he)
  · intro h e he
    simp [h e he]

theorem dag_no_closed_walk (g : DiGraph)
    (hWF : ∀ e ∈ g.edges, e.1 ∈ g.nodes ∧ e.2.1 ∈ g.nodes)
    (hdag : g.isDag = true) (l : List Str) (x : Str)
    (hw : WalkFromTo g l x x) (h2 : 2 ≤ l.length) : False := by
  obtain ⟨hh, hlast, hchain⟩ := hw
  match l, h2 with
  | a :: b :: rest, _ =>
    simp only [List.head?_cons, Option.some_inj] at hh
    subst hh
    rw [List.chain'_cons] at hchain
    obtain ⟨⟨w, hw0⟩, hct⟩ := hchain
    have hreach : g.reaches b a = true := by
      apply walk_to_reaches g hWF (b :: rest) b a
      refine ⟨rfl, ?_, hct⟩
      rw [List.getLast?_cons_cons] at hlast
      exact hlast
    have := (isDag_iff g).mp hdag (a, b, w) hw0
    simp only at this
    rw [hreach] at this
    cases this

theorem dag_walk_nodup (g : DiGraph)
    (hWF : ∀ e ∈ g.edges, e.1 ∈ g.nodes ∧ e.2.1 ∈ g.nodes)
    (hdag : g.isDag = true) (l : List Str) (u v : Str)
    (hw : WalkFromTo g l u v) : l.Nodup := by
  by_contra hnd
  obtain ⟨l₁, x, l₂, l₃, rfl⟩ := not_nodup_decomp l hnd
  obtain ⟨hh, hlast, hchain⟩ := hw
  have hsplit1 : (l₁ ++ x :: l₂ ++ x :: l₃) = l₁ ++ ((x :: l₂) ++ (x :: l₃)) := by
    simp
  rw [hsplit1, List.chain'_append] at hchain
  obtain ⟨hc1, hc23, hlink1⟩ := hchain
  rw [List.chain'_append] at hc23
  obtain ⟨hc2, hc3, hlink2⟩ := hc23
  have hwm : WalkFromTo g ((x :: l₂) ++ [x]) x x := by
    refine ⟨by simp, ?_, ?_⟩
    · rw [List.getLast?_append_of_ne_nil _ (by simp)]
      rfl
    · rw [List.chain'_append]
      refine ⟨hc2, List.chain'_singleton x, ?_⟩
      intro a ha b hb
      simp only [List.head?_cons, Option.mem_def, Option.some_inj] at hb
      subst hb
      apply hlink2 a ha
      simp
  exact dag_no_closed_walk g hWF hdag ((x :: l₂) ++ [x]) x hwm (by simp)

theorem mem_predecessors (g : DiGraph) (d p : Str) :
    p ∈ g.predecessors d ↔ ∃ w, (p, d, w) ∈ g.edges := by
  unfold DiGraph.predecessors
  rw [List.mem_map]
  constructor
  · rintro ⟨e, he, rfl⟩
    rw [List.mem_filter, decide_eq_true_eq] at he
    exact ⟨e.2.2, by
      have : e = (e.1, d, e.2.2) := by
        obtain ⟨e1, e2, e3⟩ := e
        simp only at he ⊢
        rw [he.2]
      rw [← this]
      exact he.1⟩
  · rintro ⟨w, hw⟩
    exact ⟨(p, d, w), by rw [List.mem_filter, decide_eq_true_eq]; exact ⟨hw, rfl⟩, rfl⟩

theorem predecessors_nodup (g : DiGraph) (d : Str) (hWF : WellFormed g) :
    (g.predecessors d).Nodup := by
  have hpairs : ((g.edges.filter (fun e => e.2.1 = d)).map
      (fun e => (e.1, e.2.1))).Nodup :=
    hWF.2.1.sublist (List.Sublist.map _ (List.filter_sublist g.edges))
  unfold DiGraph.predecessors
  have hmapeq : (g.edges.filter (fun e => decide (e.2.1 = d))).map (fun e => e.1) =
      ((g.edges.filter (fun e => decide (e.2.1 = d))).map
        (fun e => (e.1, e.2.1))).map Prod.fst := by
    rw [List.map_map]
    rfl
  rw [hmapeq]
  apply List.Nodup.map_on ?_ hpairs
  intro x hx y hy hxy
  rw [List.mem_map] at hx hy
  obtain ⟨ex, hex, rfl⟩ := hx
  obtain ⟨ey, hey, rfl⟩ := hy
  rw [List.mem_filter, decide_eq_true_eq] at hex hey
  simp only [Prod.mk.injEq]
  exact ⟨hxy, by rw [hex.2, hey.2]⟩

theorem mem_commonAncestors (g : DiGraph) (x y a : Str) :
    a ∈ g.commonAncestors x y ↔
      a ∈ g.nodes ∧ g.reaches a x = true ∧ g.reaches a y = true := by
  unfold DiGraph.commonAncestors
  rw [List.mem_filter]
  simp [Bool.and_eq_true]

theorem walkDownAux_mem (g : DiGraph) (s : List Str) :
    ∀ (f : Nat) (cur : Str), cur ∈ s → g.walkDownAux s f cur ∈ s := by
  intro f
  induction f with
  | zero => intro cur h; exact h
  | succ f ih =>
    intro cur h
    unfold DiGraph.walkDownAux
    split
    · exact h
    · rename_i nxt heq
      apply ih
      have := List.find?_some heq
      simpa using this

theorem lca_some_common (g : DiGraph) (x y a : Str)
    (h : g.lowest_common_ancestor x y = .ok (some a)) :
    a ∈ g.nodes ∧ g.reaches a x = true ∧ g.reaches a y = true := by
  unfold DiGraph.lowest_common_ancestor at h
  by_cases hdag : g.isDag = true
  · rw [if_pos hdag] at h
    cases hca : g.commonAncestors x y with
    | nil => rw [hca] at h; cases h
    | cons c rest =>
      rw [hca] at h
      have hc : c ∈ g.commonAncestors x y := by
        rw [hca]; exact List.mem_cons_self c rest
      have hmem := walkDownAux_mem g (g.commonAncestors x y) g.nodes.length c hc
      cases h
      nth_rewrite 2 [hca] at hmem
      exact (mem_commonAncestors g x y _).mp hmem
  · rw [if_neg hdag] at h
    cases h

theorem lca_ok_none (g : DiGraph) (x y : Str) (hdag : g.isDag = true)
    (hca : g.commonAncestors x y = []) :
    g.lowest_common_ancestor x y = .ok none := by
  unfold DiGraph.lowest_common_ancestor
  rw [if_pos hdag, hca]

theorem scanJ_none (g : DiGraph) (pi : Str) (rest : List Str)
    (h : ∀ pj ∈ rest, g.lowest_common_ancestor pi pj = .ok none) :
    scanJ g pi rest = .ok none ∨ scanJ g pi rest = .ok (some none) := by
  induction rest with
  | nil => exact Or.inl rfl
  | cons pj rest' ih =>
    unfold scanJ
    rw [h pj (List.mem_cons_self pj rest')]
    rcases ih (fun pj' h' => h pj' (List.mem_cons_of_mem pj h')) with
      hj | hj <;> rw [hj] <;> exact Or.inr rfl

theorem scanI_none (g : DiGraph) (l : List Str)
    (h : l.Pairwise (fun pi pj => g.lowest_common_ancestor pi pj = .ok none)) :
    scanI g l false none = .ok (false, none) := by
  induction l with
  | nil => rfl
  | cons pi rest ih =>
    rw [List.pairwise_cons] at h
    unfold scanI
    rcases scanJ_none g pi rest h.1 with hj | hj <;> rw [hj] <;>
      exact ih h.2

theorem detectBubbleAux_none (g : DiGraph) (nl : List Str)
    (h : ∀ n ∈ nl, (g.predecessors n).Pairwise
      (fun pi pj => g.lowest_common_ancestor pi pj = .ok none)) :
    detectBubbleAux g nl = .ok none := by
  induction nl with
  | nil => rfl
  | cons n rest ih =>
    unfold detectBubbleAux
    by_cases hlen : (g.predecessors n).length > 1
    · rw [if_pos hlen, scanI_none g _ (h n (List.mem_cons_self n rest))]
      exact ih (fun m hm => h m (List.mem_cons_of_mem n hm))
    · rw [if_neg hlen]
      exact ih (fun m hm => h m (List.mem_cons_of_mem n hm))

theorem reaches_to_simple_path_avoiding (g : DiGraph)
    (hWF : ∀ e ∈ g.edges, e.1 ∈ g.nodes ∧ e.2.1 ∈ g.nodes)
    (hdag : g.isDag = true) (a p d : Str)
    (hap : g.reaches a p = true) (hpd : p ∈ g.predecessors d) :
    ∃ l, WalkFromTo g l a p ∧ l.Nodup ∧ d ∉ l := by
  obtain ⟨l, hl⟩ := reachbAux_to_walk g g.nodes.length a p hap
  have hnd := dag_walk_nodup g hWF hdag l a p hl
  refine ⟨l, hl, hnd, ?_⟩
  intro hdl
  obtain ⟨w₁, w₂, rfl⟩ := List.append_of_mem hdl
  obtain ⟨hh, hlast, hchain⟩ := hl
  rw [List.chain'_append] at hchain
  obtain ⟨hc1, hc2, hlink⟩ := hchain
  have hwsuf : WalkFromTo g (d :: w₂) d p := by
    refine ⟨rfl, ?_, hc2⟩
    rw [List.getLast?_append_of_ne_nil _ (by simp)] at hlast
    exact hlast
  obtain ⟨w, hw⟩ := (mem_predecessors g d p).mp hpd
  have hreach : g.reaches d p = true := walk_to_reaches g hWF _ d p hwsuf
  have hfalse := (isDag_iff g).mp hdag (p, d, w) hw
  simp only at hfalse
  rw [hreach] at hfalse
  cases hfalse

theorem extend_simple_path (g : DiGraph) (l : List Str) (a x d : Str)
    (hw : WalkFromTo g l a x) (hnd : l.Nodup) (hdl : d ∉ l)
    (hx : x ∈ g.predecessors d) :
    SimplePathFromTo g (l ++ [d]) a d := by
  obtain ⟨hh, hlast, hchain⟩ := hw
  refine ⟨⟨?_, ?_, ?_⟩, ?_⟩
  · cases l with
    | nil => cases hh
    | cons c t => simpa using hh
  · rw [List.getLast?_append_of_ne_nil _ (by simp)]
    rfl
  · rw [List.chain'_append]
    refine ⟨hchain, List.chain'_singleton d, ?_⟩
    intro aa ha bb hb
    simp only [List.head?_cons, Option.mem_def, Option.some_inj] at hb
    subst hb
    rw [hlast] at ha
    simp only [Option.mem_def, Option.some_inj] at ha
    subst ha
    obtain ⟨w, hw⟩ := (mem_predecessors g d x).mp hx
    exact ⟨w, hw⟩
  · rw [List.nodup_append]
    refine ⟨hnd, List.nodup_singleton d, ?_⟩
    intro y hy hyd
    rw [List.mem_singleton] at hyd
    subst hyd
    exact hdl hy

theorem bubble_of_common_ancestor (g : DiGraph) (d p q a : Str)
    (hWF : WellFormed g) (hdag : g.isDag = true) (hd : d ∈ g.nodes)
    (hp : p ∈ g.predecessors d) (hq : q ∈ g.predecessors d) (hpq : p ≠ q)
    (ha : a ∈ g.nodes) (hap : g.reaches a p = true)
    (haq : g.reaches a q = true) : HasBubble g := by
  obtain ⟨l₁, hw₁, hnd₁, hdl₁⟩ :=
    reaches_to_simple_path_avoiding g hWF.2.2 hdag a p d hap hp
  obtain ⟨l₂, hw₂, hnd₂, hdl₂⟩ :=
    reaches_to_simple_path_avoiding g hWF.2.2 hdag a q d haq hq
  refine ⟨d, hd, p, hp, q, hq, hpq, a, ha, hap, haq, l₁ ++ [d], l₂ ++ [d],
    ?_, extend_simple_path g l₁ a p d hw₁ hnd₁ hdl₁ hp,
    extend_simple_path g l₂ a q d hw₂ hnd₂ hdl₂ hq⟩
  intro heq
  have hl : l₁ = l₂ := by
    have := congrArg List.dropLast heq
    simpa using this
  rw [hl] at hw₁
  have := hw₁.2.1.symm.trans hw₂.2.1
  rw [Option.some_inj] at this
  exact hpq this

/-- C9 amended: on every *acyclic* well-formed graph containing no
bubble, `simplify_bubbles` is the identity: the scan finds no
predecessor pair with a common ancestor (in a DAG a common ancestor of
two distinct predecessors of `d` always yields two distinct simple paths
to `d`, i.e. a bubble), so the graph is returned unchanged.  The
acyclicity hypothesis is forced by the counterexample: on a cyclic graph
the pass can raise `NetworkXError` out of `nx.lowest_common_ancestor`
even when no bubble exists. -/
theorem simplify_bubbles_identity_on_dag (g : DiGraph)
    (hWF : WellFormed g) (hdag : g.isDag = true) (hnb : ¬ HasBubble g)
    (fuel : Nat) (hfuel : 1 ≤ fuel) (rands : Nat → Nat) :
    simplify_bubbles rands fuel g = .ok g := by
  have hdet : detectBubble g = .ok none := by
    unfold detectBubble
    apply detectBubbleAux_none
    intro n hn
    have hnd := predecessors_nodup g n hWF
    apply List.Pairwise.imp_of_mem ?_ hnd
    intro pi pj hpi hpj hne
    cases hca : g.commonAncestors pi pj with
    | nil => exact lca_ok_none g pi pj hdag hca
    | cons c rest =>
      exfalso
      have hc : c ∈ g.commonAncestors pi pj := by
        rw [hca]; exact List.mem_cons_self c rest
      obtain ⟨hcn, hcp, hcq⟩ := (mem_commonAncestors g pi pj c).mp hc
      exact hnb
        (bubble_of_common_ancestor g n pi pj c hWF hdag hn hpi hpj hne hcn hcp hcq)
  match fuel, hfuel with
  | f + 1, _ => simp only [simplify_bubbles, hdet]

theorem G9_simple_unique (l : List Str) (h : SimplePathFromTo G9 l sA sD) :
    l = [sA, sD] := by
  obtain ⟨⟨hh, hlast, hchain⟩, hnd⟩ := h
  match l with
  | [] => cases hh
  | [x] =>
    rw [List.head?_cons, Option.some_inj] at hh
    simp only [List.getLast?_singleton, Option.some_inj] at hlast
    subst hh
    exact absurd hlast (by decide)
  | x :: y :: rest =>
    rw [List.head?_cons, Option.some_inj] at hh
    subst hh
    rw [List.chain'_cons] at hchain
    obtain ⟨⟨w, hw⟩, hct⟩ := hchain
    have hedges : G9.edges = [(sA, sD, 1), (sD, sP, 1), (sP, sD, 1)] := by decide
    rw [hedges] at hw
    have hy : y = sD := by
      simp only [List.mem_cons, List.not_mem_nil, or_false,
        Prod.mk.injEq] at hw
      rcases hw with ⟨-, h1, -⟩ | ⟨h1, -, -⟩ | ⟨h1, -, -⟩
      · exact h1
      · exact absurd h1 (by decide)
      · exact absurd h1 (by decide)
    subst hy
    match rest with
    | [] => rfl
    | z :: rest' =>
      exfalso
      rw [List.getLast?_cons_cons, List.getLast?_cons_cons] at hlast
      have hmem : sD ∈ z :: rest' := List.mem_of_mem_getLast? hlast
      rw [List.nodup_cons] at hnd
      rw [List.nodup_cons] at hnd
      exact hnd.2.1 hmem

theorem no_bubble_G9 : ¬ HasBubble G9 := by
  rintro ⟨d', hd', p', hp', q', hq', hne, a', ha', hap, haq, l₁, l₂, hll,
    hsp1, hsp2⟩
  have hnodes : G9.nodes = [sA, sD, sP] := by decide
  rw [hnodes] at hd'
  rcases List.mem_cons.mp hd' with rfl | hd2
  · rw [(by decide : G9.predecessors sA = [])] at hp'
    exact absurd hp' (List.not_mem_nil p')
  rcases List.mem_cons.mp hd2 with rfl | hd3
  · rw [(by decide : G9.predecessors sD = [sA, sP])] at hp' hq'
    have hA : G9.reaches a' sA = true := by
      rcases List.mem_cons.mp hp' with rfl | hp2
      · exact hap
      · rcases List.mem_cons.mp hq' with rfl | hq2
        · exact haq
        · rcases List.mem_singleton.mp hq2 with rfl
          rcases List.mem_singleton.mp hp2 with h
          exact absurd h hne
    rw [hnodes] at ha'
    have haA : a' = sA := by
      rcases List.mem_cons.mp ha' with rfl | ha2
      · rfl
      rcases List.mem_cons.mp ha2 with rfl | ha3
      · rw [(by decide : G9.reaches sD sA = false)] at hA; cases hA
      rcases List.mem_singleton.mp ha3 with rfl
      rw [(by decide : G9.reaches sP sA = false)] at hA; cases hA
    subst haA
    exact hll ((G9_simple_unique l₁ hsp1).trans (G9_simple_unique l₂ hsp2).symm)
  · rcases List.mem_singleton.mp hd3 with rfl
    rw [(by decide : G9.predecessors sP = [sD])] at hp' hq'
    rcases List.mem_singleton.mp hp' with rfl
    rcases List.mem_singleton.mp hq' with h
    exact absurd h.symm hne

/-- C9 counterexample: the cyclic graph `G9` (`a→d`, `d→p`, `p→d`)
contains no bubble — the only node with two distinct predecessors is `d`,
its predecessors' only common ancestor is `a`, and only one simple path
leads from `a` to `d` — yet `simplify_bubbles` does not return the graph
unchanged: the node scan reaches `d`, calls `nx.lowest_common_ancestor`
on the cyclic graph, and aborts with `NetworkXError`. -/
theorem simplify_bubbles_cycle_counterexample :
    ¬ HasBubble G9 ∧
    simplify_bubbles (fun _ => 0) 5 G9 = .error .networkXError ∧
    (Except.error PyError.networkXError : Except PyError DiGraph) ≠ .ok G9 :=
  ⟨no_bubble_G9, by decide, by decide⟩

/-- The chain `a→b→c` is bubble-free: no node has two distinct
predecessors. -/
theorem no_bubble_Gchain : ¬ HasBubble Gchain := by
  rintro ⟨d', hd', p', hp', q', hq', hne, -⟩
  have hnodes : Gchain.nodes = [sA, sB, sC] := by decide
  rw [hnodes] at hd'
  rcases List.mem_cons.mp hd' with rfl | hd2
  · rw [(by decide : Gchain.predecessors sA = [])] at hp'
    exact absurd hp' (List.not_mem_nil p')
  rcases List.mem_cons.mp hd2 with rfl | hd3
  · rw [(by decide : Gchain.predecessors sB = [sA])] at hp' hq'
    rcases List.mem_singleton.mp hp' with rfl
    exact hne (List.mem_singleton.mp hq').symm
  · rcases List.mem_singleton.mp hd3 with rfl
    rw [(by decide : Gchain.predecessors sC = [sB])] at hp' hq'
    rcases List.mem_singleton.mp hp' with rfl
    exact hne (List.mem_singleton.mp hq').symm

/-- C9 amended, witness: the bubble-free chain `a→b→c` is a well-formed
DAG, and one pass of `simplify_bubbles` returns it unchanged. -/
theorem simplify_bubbles_identity_on_dag_witness :
    simplify_bubbles (fun _ => 0) 1 Gchain = .ok Gchain :=
  simplify_bubbles_identity_on_dag Gchain (by decide) (by decide)
    no_bubble_Gchain 1 (le_refl 1) (fun _ => 0)

/-- Soundness of the `nx.all_simple_paths` DFS: every enumerated list is
a simple path from the start to the target avoiding the visited nodes. -/
theorem allSimplePathsAux_sound (g : DiGraph) (t : Str) :
    ∀ (f : Nat) (cur : Str) (vis : List Str) (p : List Str),
      cur ∉ vis → p ∈ g.allSimplePathsAux t f cur vis →
      p.head? = some cur ∧ p.getLast? = some t ∧
        p.Chain' (IsEdgeOf g) ∧ p.Nodup ∧ ∀ x ∈ p, x ∉ vis := by
  intro f
  induction f with
  | zero =>
    intro cur vis p _ hp
    unfold DiGraph.allSimplePathsAux at hp
    cases hp
  | succ f ih =>
    intro cur vis p hcv hp
    unfold DiGraph.allSimplePathsAux at hp
    by_cases hct : cur = t
    · rw [if_pos hct] at hp
      rcases List.mem_singleton.mp hp with rfl
      refine ⟨by rw [hct]; exact List.head?_cons, ?_, List.chain'_singleton _,
        List.nodup_singleton _, ?_⟩
      · exact List.getLast?_singleton t
      intro x hx
      rcases List.mem_singleton.mp hx with rfl
      rw [← hct]
      exact hcv
    · rw [if_neg hct] at hp
      rw [List.mem_flatMap] at hp
      obtain ⟨s, hs, hp⟩ := hp
      rw [List.mem_filter] at hs
      obtain ⟨hs_succ, hs_nvis⟩ := hs
      rw [List.mem_map] at hp
      obtain ⟨p', hp', rfl⟩ := hp
      have hs_nv : s ∉ cur :: vis := by simpa using hs_nvis
      obtain ⟨hh', hl', hc', hn', hv'⟩ := ih s (cur :: vis) p' hs_nv hp'
      have hp'ne : p' ≠ [] := fun hc => by rw [hc] at hh'; cases hh'
      refine ⟨rfl, ?_, ?_, ?_, ?_⟩
      · rw [List.getLast?_cons, hl']
        cases p' with
        | nil => exact absurd rfl hp'ne
        | cons a t' => simp
      · rw [List.chain'_cons']
        refine ⟨?_, hc'⟩
        intro x hx
        rw [hh'] at hx
        cases hx
        exact (mem_successors g cur s).mp hs_succ
      · rw [List.nodup_cons]
        refine ⟨?_, hn'⟩
        intro hcur
        exact (hv' cur hcur) (List.mem_cons_self cur vis)
      · intro x hx
        rcases List.mem_cons.mp hx with rfl | hx'
        · exact hcv
        · intro hxv
          exact (hv' x hx') (List.mem_cons_of_mem cur hxv)

/-- Every enumerated simple path runs from `s` to `t` along edges,
repeats no node, and has at least two nodes (the enumeration is empty
when `s = t`). -/
theorem all_simple_paths_sound (g : DiGraph) (s t : Str) (p : List Str)
    (hp : p ∈ g.all_simple_paths s t) :
    p.head? = some s ∧ p.getLast? = some t ∧ p.Chain' (IsEdgeOf g) ∧
      p.Nodup ∧ 2 ≤ p.length := by
  unfold DiGraph.all_simple_paths at hp
  by_cases hst : s = t
  · rw [if_pos hst] at hp
    cases hp
  · rw [if_neg hst] at hp
    obtain ⟨hh, hl, hc, hn, -⟩ :=
      allSimplePathsAux_sound g t g.nodes.length s [] p
        (List.not_mem_nil s) hp
    refine ⟨hh, hl, hc, hn, ?_⟩
    match p, hh with
    | [x], hh =>
      rw [List.head?_cons, Option.some_inj] at hh
      simp only [List.getLast?_singleton, Option.some_inj] at hl
      exact absurd (hh ▸ hl) hst
    | x :: y :: rest, _ => simp only [List.length_cons]; omega

/-- Python's `node[-1]`, as the one-character suffix. -/
theorem lastElem_of_ne_nil (s : Str) (h : s ≠ []) :
    s.drop (s.length - 1) = [s.getLast h] := by
  induction s with
  | nil => exact absurd rfl h
  | cons a t ih =>
    cases t with
    | nil => rfl
    | cons b t' =>
      have hbt : b :: t' ≠ [] := by simp
      have hstep : (a :: b :: t').length - 1 = (b :: t').length - 1 + 1 := by
        simp only [List.length_cons]
        omega
      rw [hstep, List.drop_succ_cons, ih hbt]
      congr 1

/-- Along an overlap chain of at least two nodes, every label is
nonempty. -/
theorem overlap_chain_ne_nil (l : List Str)
    (hc : l.Chain' (fun u v => u ≠ [] ∧ v.length = u.length ∧
      v.dropLast = u.drop 1)) (h2 : 2 ≤ l.length) :
    ∀ x ∈ l, x ≠ [] := by
  induction l with
  | nil => simp at h2
  | cons a t ih =>
    intro x hx
    cases t with
    | nil => simp at h2
    | cons b t' =>
      rw [List.chain'_cons] at hc
      obtain ⟨⟨hane, hblen, -⟩, hct⟩ := hc
      have hbne : b ≠ [] := by
        intro hcb
        rw [hcb] at hblen
        simp only [List.length_nil] at hblen
        exact hane (List.length_eq_zero.mp hblen.symm)
      rcases List.mem_cons.mp hx with rfl | hx'
      · exact hane
      · cases t' with
        | nil =>
          rcases List.mem_singleton.mp hx' with rfl
          exact hbne
        | cons c t'' =>
          exact ih hct (by simp) x hx'

/-- The contig of a path contributes the full first label plus one
character per later node. -/
theorem contigOfPath_length (n0 : Str) (rest : List Str)
    (h : ∀ n ∈ rest, n ≠ []) :
    (contigOfPath (n0 :: rest)).length = n0.length + rest.length := by
  unfold contigOfPath
  rw [List.length_append]
  congr 1
  induction rest with
  | nil => rfl
  | cons n rest' ih =>
    rw [List.flatMap_cons, List.length_append, List.length_cons]
    rw [ih (fun m hm => h m (List.mem_cons_of_mem n hm))]
    have hn : n ≠ [] := h n (List.mem_cons_self n rest')
    have h1 : 1 ≤ n.length := List.length_pos.mpr hn
    rw [List.length_drop]
    omega

/-- Peeling one node off a contig: the first character of the first
label, then the contig of the rest — because consecutive labels overlap
in all but one character. -/
theorem contigOfPath_step (n0 n1 : Str) (rest : List Str) (hne : n0 ≠ [])
    (hlen : n1.length = n0.length) (hover : n1.dropLast = n0.drop 1) :
    contigOfPath (n0 :: n1 :: rest) =
      n0.head hne :: contigOfPath (n1 :: rest) := by
  have hn1 : n1 ≠ [] := by
    intro hc
    rw [hc] at hlen
    simp only [List.length_nil] at hlen
    exact hne (List.length_eq_zero.mp hlen.symm)
  simp only [contigOfPath]
  rw [List.flatMap_cons, lastElem_of_ne_nil n1 hn1]
  have hN1 : n1 = n0.drop 1 ++ [n1.getLast hn1] := by
    rw [← hover]
    exact (List.dropLast_append_getLast hn1).symm
  calc n0 ++ ([n1.getLast hn1] ++
        rest.flatMap (fun n => n.drop (n.length - 1)))
      = (n0 ++ [n1.getLast hn1]) ++
        rest.flatMap (fun n => n.drop (n.length - 1)) := by
        rw [List.append_assoc]
    _ = (n0.head hne :: (n0.drop 1 ++ [n1.getLast hn1])) ++
        rest.flatMap (fun n => n.drop (n.length - 1)) := by
        congr 1
        conv_lhs => rw [← List.head_cons_tail n0 hne]
        rw [List.cons_append, List.drop_one]
    _ = n0.head hne :: (n1 ++
        rest.flatMap (fun n => n.drop (n.length - 1))) := by
        rw [← hN1]
        rw [List.cons_append]

/-- The window of the contig at offset `i` is exactly the `i`-th node of
the path. -/
theorem contigOfPath_get (p : List Str)
    (hc : p.Chain' (fun u v => u ≠ [] ∧ v.length = u.length ∧
      v.dropLast = u.drop 1)) :
    ∀ (i : Nat) (hi : i < p.length),
      ((contigOfPath p).drop i).take (p.headD []).length = p.get ⟨i, hi⟩ := by
  induction p with
  | nil => intro i hi; simp at hi
  | cons n0 t ih =>
    intro i hi
    cases t with
    | nil =>
      match i, hi with
      | 0, _ =>
        simp only [contigOfPath, List.flatMap_nil, List.append_nil,
          List.drop_zero, List.headD_cons]
        rw [List.take_length]
        rfl
    | cons n1 rest =>
      rw [List.chain'_cons] at hc
      obtain ⟨⟨hne0, hlen, hover⟩, hct⟩ := hc
      cases i with
      | zero =>
        simp only [contigOfPath, List.drop_zero, List.headD_cons]
        rw [List.take_left]
        rfl
      | succ i' =>
        rw [contigOfPath_step n0 n1 rest hne0 hlen hover]
        rw [List.drop_succ_cons]
        have hi' : i' < (n1 :: rest).length := by
          simp only [List.length_cons] at hi ⊢
          omega
        have := ih hct i' hi'
        simp only [List.headD_cons] at this ⊢
        rw [hlen] at this
        rw [this]
        rfl

/-- Membership in the `get_contigs` output: one `(sequence, length)`
pair per simple path of each connected (source, sink) pair. -/
theorem mem_get_contigs (g : DiGraph) (ss ts : List Str) (c : Str × Nat) :
    c ∈ get_contigs g ss ts ↔ ∃ s ∈ ss, ∃ t ∈ ts, g.has_path s t = true ∧
      ∃ p ∈ g.all_simple_paths s t,
        c = (contigOfPath p, (contigOfPath p).length) := by
  unfold get_contigs
  rw [List.mem_flatMap]
  constructor
  · rintro ⟨s, hs, hc⟩
    rw [List.mem_flatMap] at hc
    obtain ⟨t, ht, hc⟩ := hc
    by_cases hp : g.has_path s t = true
    · rw [if_pos hp] at hc
      rw [List.mem_map] at hc
      obtain ⟨p, hpp, rfl⟩ := hc
      exact ⟨s, hs, t, ht, hp, p, hpp, rfl⟩
    · rw [if_neg hp] at hc
      cases hc
  · rintro ⟨s, hs, t, ht, hp, p, hpp, rfl⟩
    refine ⟨s, hs, ?_⟩
    rw [List.mem_flatMap]
    refine ⟨t, ht, ?_⟩
    rw [if_pos hp]
    exact List.mem_map_of_mem _ hpp

/-- C6: over any well-formed graph whose edges all satisfy the de Bruijn
overlap invariant (as every graph of this pipeline does), `get_contigs`
emits exactly one `(sequence, length)` pair per enumerated simple path of
each connected (source, sink) pair, the sequence being the first node's
label followed by the last character of each later node; the emitted
length is `len(n0) + m` for a path of `m+1` nodes, and the window of the
sequence at each offset `i` is node `n_i`. -/
theorem get_contigs_spec (g : DiGraph) (ss ts : List Str)
    (hWF : WellFormed g) (hov : OverlapGraph g) :
    (∀ c ∈ get_contigs g ss ts, ∃ s t p, s ∈ ss ∧ t ∈ ts ∧
      p ∈ g.all_simple_paths s t ∧
      c = (contigOfPath p, (contigOfPath p).length)) ∧
    (∀ s ∈ ss, ∀ t ∈ ts, ∀ p ∈ g.all_simple_paths s t,
      (contigOfPath p, (contigOfPath p).length) ∈ get_contigs g ss ts) ∧
    (∀ s t p, p ∈ g.all_simple_paths s t →
      (contigOfPath p).length + 1 = (p.headD []).length + p.length ∧
      ∀ (i : Nat) (hi : i < p.length),
        ((contigOfPath p).drop i).take (p.headD []).length
          = p.get ⟨i, hi⟩) := by
  have hover : ∀ (p : List Str), p.Chain' (IsEdgeOf g) →
      p.Chain' (fun u v => u ≠ [] ∧ v.length = u.length ∧
        v.dropLast = u.drop 1) := by
    intro p hp
    apply List.Chain'.imp ?_ hp
    rintro u v ⟨w, hw⟩
    exact hov (u, v, w) hw
  refine ⟨?_, ?_, ?_⟩
  · intro c hc
    obtain ⟨s, hs, t, ht, -, p, hpp, rfl⟩ := (mem_get_contigs g ss ts c).mp hc
    exact ⟨s, t, p, hs, ht, hpp, rfl⟩
  · intro s hs t ht p hpp
    obtain ⟨hh, hl, hchain, -, -⟩ := all_simple_paths_sound g s t p hpp
    have hpath : g.has_path s t = true :=
      walk_to_reaches g hWF.2.2 p s t ⟨hh, hl, hchain⟩
    exact (mem_get_contigs g ss ts _).mpr ⟨s, hs, t, ht, hpath, p, hpp, rfl⟩
  · intro s t p hpp
    obtain ⟨hh, hl, hchain, hnd, h2⟩ := all_simple_paths_sound g s t p hpp
    have hoc := hover p hchain
    constructor
    · match p, hh, hoc, h2 with
      | n0 :: rest, _, hoc, h2 =>
        have htails : ∀ n ∈ rest, n ≠ [] := fun n hn =>
          overlap_chain_ne_nil (n0 :: rest) hoc h2 n
            (List.mem_cons_of_mem n0 hn)
        rw [contigOfPath_length n0 rest htails]
        simp only [List.headD_cons, List.length_cons]
        omega
    · intro i hi
      exact contigOfPath_get p hoc i hi


/-- C6 witness: the spec's §8 scenario — graph of `TCAGA` with `k = 3`,
source `TC`, sink `GA` — emits the contig of the unique simple path. -/
theorem get_contigs_spec_witness :
    (contigOfPath [['T','C'], ['C','A'], ['A','G'], ['G','A']],
      (contigOfPath [['T','C'], ['C','A'], ['A','G'], ['G','A']]).length)
      ∈ get_contigs GT [['T','C']] [['G','A']] :=
  (get_contigs_spec GT [['T','C']] [['G','A']] (by decide) (by decide)).2.1
    ['T','C'] (by decide) ['G','A'] (by decide)
    [['T','C'], ['C','A'], ['A','G'], ['G','A']] (by decide)
